import Mathlib

/-!
Verification of the run-mcp configuration scanner against its specification.

This file shallowly embeds the scanner's core algorithms in Lean 4:

* Go strings are modelled as byte lists (`GoStr := List Nat`), matching the
  byte-oriented operations (`len`, slicing, `bytes.ReplaceAll`, ...) used by
  the source.  Helper literals are produced from ASCII-only Lean strings.
* The secret detector (`secrets_detector.go`) is embedded together with an
  executable byte-level regular-expression engine used to give semantics to
  the provider token patterns.  The Shannon-entropy heuristic is embedded
  over the reals.
* The redaction function, the secret scan traversal, the finding set, the
  case-insensitive key-collision check, the config-kind detectors, the
  identifier extractor and the ratings collector batching logic are embedded
  from their Go sources.

All definitions follow the Go source files; doc comments name the Go
function a definition embeds.  Definitions explicitly marked
`Modelled from the spec:` embed behavior whose source is not part of the
repository snapshot.
-/

set_option maxHeartbeats 4000000
set_option maxRecDepth 20000

/-- A Go string (or `[]byte`): a list of byte values. All string literals used
below are ASCII, so each `Char.toNat` is the UTF-8 byte. -/
abbrev GoStr := List Nat

/-- Byte list of an ASCII Lean string literal. -/
def gs (s : String) : GoStr := s.data.map Char.toNat

/-- Go `strings.Repeat(c, n)` for a single byte. -/
def repeatByte (c n : Nat) : GoStr := List.replicate n c

/-- The `*` byte. -/
def starByte : Nat := 42

/-- Embeds `redactSecret` from `internal/scanner/secrets_redactor.go`:
empty stays empty; length at most 8 becomes all stars; otherwise keep the
first 4 bytes; length above 16 gets exactly 12 stars and a `...` suffix,
else `n-4` stars. -/
def redactSecret (secret : GoStr) : GoStr :=
  let n := secret.length
  if n = 0 then []
  else if n ≤ 4 + 4 then repeatByte starByte n
  else if n > 16 then secret.take 4 ++ repeatByte starByte (16 - 4) ++ gs "..."
  else secret.take 4 ++ repeatByte starByte (n - 4)

/-- **C9.** `redact` maps the empty string to the empty string; every input of
length at most 8 to that many `*`; inputs of length 9 to 16 to their first 4
bytes followed by `length - 4` stars; longer inputs to their first 4 bytes,
exactly 12 stars and `...` (so length 8 is fully masked, length 9 keeps 4
characters, and length 17 is truncated with `...`). -/
theorem C9_redact_shape (s : GoStr) :
    redactSecret s =
      if s.length = 0 then []
      else if s.length ≤ 8 then List.replicate s.length starByte
      else if s.length ≤ 16 then s.take 4 ++ List.replicate (s.length - 4) starByte
      else s.take 4 ++ List.replicate 12 starByte ++ gs "..." := by
  unfold redactSecret repeatByte
  by_cases h0 : s.length = 0
  · simp [h0]
  · by_cases h8 : s.length ≤ 8
    · simp [h0, h8, show s.length ≤ 4 + 4 from by omega]
    · by_cases h16 : s.length ≤ 16
      · simp [h0, h8, h16, show ¬ s.length ≤ 4 + 4 from by omega,
          show ¬ s.length > 16 from by omega]
      · simp [h0, h8, h16, show ¬ s.length ≤ 4 + 4 from by omega,
          show s.length > 16 from by omega]

/-! ### A byte-level regular-expression engine

`secrets_detector.go` drives detection through Go `regexp` patterns.  We give
those patterns exact semantics with a small derivative-based engine over byte
lists.  Character classes are explicit range lists so that syntactic analyses
(minimum length, excluded bytes, guaranteed byte counts) are computable. -/

/-- A character class: a list of inclusive byte ranges, possibly negated.
Matching is restricted to bytes below 256, as in Go. -/
structure CClass where
  neg : Bool
  ranges : List (Nat × Nat)
deriving Repr, DecidableEq

/-- Does byte `b` belong to the class? -/
def ccMatch (cc : CClass) (b : Nat) : Bool :=
  b < 256 && (if cc.neg then !(cc.ranges.any fun r => r.1 ≤ b && b ≤ r.2)
              else cc.ranges.any fun r => r.1 ≤ b && b ≤ r.2)

/-- Regular expressions over bytes.  `repc cc lo hi` is a counted repetition
of a single class (sufficient for every provider pattern). -/
inductive RE where
  | emp : RE
  | eps : RE
  | chc : CClass → RE
  | cat : RE → RE → RE
  | alt : RE → RE → RE
  | star : RE → RE
  | repc : CClass → Nat → Option Nat → RE
deriving Repr, DecidableEq

/-- Language membership for `RE`.  The star case consumes a nonempty chunk at
each step, which yields the same language as the usual definition. -/
inductive REAccept : RE → List Nat → Prop where
  | eps : REAccept .eps []
  | chc {cc b} : ccMatch cc b = true → REAccept (.chc cc) [b]
  | cat {a b u v} : REAccept a u → REAccept b v → REAccept (.cat a b) (u ++ v)
  | altL {a b w} : REAccept a w → REAccept (.alt a b) w
  | altR {a b w} : REAccept b w → REAccept (.alt a b) w
  | starNil {a} : REAccept (.star a) []
  | starCons {a u v} : REAccept a u → u ≠ [] → REAccept (.star a) v →
      REAccept (.star a) (u ++ v)
  | repc {cc lo hi w} : lo ≤ w.length → (∀ h, hi = some h → w.length ≤ h) →
      (∀ b ∈ w, ccMatch cc b = true) → REAccept (.repc cc lo hi) w

/-- Does the expression accept the empty word? -/
def reNullable : RE → Bool
  | .emp => false
  | .eps => true
  | .chc _ => false
  | .cat a b => reNullable a && reNullable b
  | .alt a b => reNullable a || reNullable b
  | .star _ => true
  | .repc _ lo _ => lo = 0

/-- Brzozowski derivative by one byte. -/
def reDeriv : RE → Nat → RE
  | .emp, _ => .emp
  | .eps, _ => .emp
  | .chc cc, c => if ccMatch cc c then .eps else .emp
  | .cat a b, c =>
      if reNullable a then .alt (.cat (reDeriv a c) b) (reDeriv b c)
      else .cat (reDeriv a c) b
  | .alt a b, c => .alt (reDeriv a c) (reDeriv b c)
  | .star a, c => .cat (reDeriv a c) (.star a)
  | .repc cc lo hi, c =>
      if hi = some 0 then .emp
      else if ccMatch cc c then .repc cc (lo - 1) (hi.map (· - 1)) else .emp

theorem reNullable_sound {r : RE} (h : reNullable r = true) : REAccept r [] := by
  induction r with
  | emp => simp [reNullable] at h
  | eps => exact .eps
  | chc cc => simp [reNullable] at h
  | cat a b iha ihb =>
      simp only [reNullable, Bool.and_eq_true] at h
      exact (List.nil_append ([] : List Nat)) ▸ REAccept.cat (iha h.1) (ihb h.2)
  | alt a b iha ihb =>
      simp only [reNullable, Bool.or_eq_true] at h
      cases h with
      | inl h => exact .altL (iha h)
      | inr h => exact .altR (ihb h)
  | star a _ => exact .starNil
  | repc cc lo hi =>
      simp only [reNullable, decide_eq_true_eq] at h
      exact .repc (by simp [h]) (by intro k _; simp) (by intro b hb; simp at hb)

theorem reDeriv_sound {r : RE} {c : Nat} {w : List Nat}
    (h : REAccept (reDeriv r c) w) : REAccept r (c :: w) := by
  induction r generalizing w with
  | emp => cases h
  | eps => cases h
  | chc cc =>
      by_cases hc : ccMatch cc c = true
      · simp only [reDeriv, hc, if_true] at h
        cases h
        exact .chc hc
      · simp only [reDeriv, hc, Bool.false_eq_true, if_false] at h
        cases h
  | cat a b iha ihb =>
      by_cases hn : reNullable a = true
      · simp only [reDeriv, hn, if_true] at h
        cases h with
        | altL h =>
            cases h with
            | cat hu hv =>
                rename_i u v
                exact (List.cons_append c u v) ▸ REAccept.cat (iha hu) hv
        | altR h =>
            exact (List.nil_append (c :: w)) ▸ REAccept.cat (reNullable_sound hn) (ihb h)
      · simp only [reDeriv, hn, Bool.false_eq_true, if_false] at h
        cases h with
        | cat hu hv =>
            rename_i u v
            exact (List.cons_append c u v) ▸ REAccept.cat (iha hu) hv
  | alt a b iha ihb =>
      cases h with
      | altL h => exact .altL (iha h)
      | altR h => exact .altR (ihb h)
  | star a iha =>
      simp only [reDeriv] at h
      cases h with
      | cat hu hv =>
          rename_i u v
          exact (List.cons_append c u v) ▸
            REAccept.starCons (iha hu) (by simp) hv
  | repc cc lo hi =>
      by_cases h0 : hi = some 0
      · simp only [reDeriv, h0, if_pos rfl] at h
        cases h
      · by_cases hc : ccMatch cc c = true
        · simp only [reDeriv, h0, if_neg h0, hc, if_true] at h
          cases h with
          | repc hlo hhi hall =>
              refine .repc ?_ ?_ ?_
              · simp only [List.length_cons]
                omega
              · intro k hk
                subst hk
                have := hhi (k - 1) (by simp)
                have hk0 : k ≠ 0 := fun hh => h0 (by simp [hh])
                simp only [List.length_cons]
                omega
              · intro b hb
                rcases List.mem_cons.mp hb with hb | hb
                · exact hb ▸ hc
                · exact hall b hb
        · simp only [reDeriv, h0, if_neg h0, hc, Bool.false_eq_true, if_false] at h
          cases h

/-- Word-constituent bytes for `\b` (`[0-9A-Za-z_]`). -/
def isWordByte (b : Nat) : Bool :=
  (48 ≤ b && b ≤ 57) || (65 ≤ b && b ≤ 90) || (97 ≤ b && b ≤ 122) || b = 95

/-- `\b`-style boundary kinds appearing at the edges of the provider patterns. -/
inductive Bnd where
  | free : Bnd
  | word : Bnd
  | anchor : Bnd
deriving Repr, DecidableEq

/-- A compiled pattern: a regular expression plus its edge boundary kinds. -/
structure Pat where
  re : RE
  lb : Bnd
  rb : Bnd
deriving Repr, DecidableEq

/-- Is `b` a word byte, treating nothing (edge of the string) as non-word? -/
def isWordOpt : Option Nat → Bool
  | none => false
  | some b => isWordByte b

/-- Boundary check between the previous byte and the byte ahead. -/
def bndOK (k : Bnd) (prev ahead : Option Nat) : Bool :=
  match k with
  | .free => true
  | .word => isWordOpt prev != isWordOpt ahead
  | .anchor => prev = none || ahead = none

/-- Left boundary at the current position: `anchor` means start of input. -/
def bndStartOK (k : Bnd) (prev : Option Nat) (rest : List Nat) : Bool :=
  match k with
  | .anchor => prev = none
  | _ => bndOK k prev rest.head?

/-- Right boundary at the current position: `anchor` means end of input. -/
def bndEndOK (k : Bnd) (prev : Option Nat) (rest : List Nat) : Bool :=
  match k with
  | .anchor => rest.isEmpty
  | _ => bndOK k prev rest.head?

/-- Try to complete a match of `r` starting here, checking the right boundary
wherever the expression can stop. -/
def reRunFrom (r : RE) (rb : Bnd) (prev : Option Nat) (rest : List Nat) : Bool :=
  (reNullable r && bndEndOK rb prev rest) ||
  match rest with
  | [] => false
  | c :: cs => reRunFrom (reDeriv r c) rb (some c) cs

/-- Unanchored search: try every start position whose left boundary fits.
Together with `reRunFrom` this embeds Go `regexp.MatchString` for the
pattern shapes used by the detector. -/
def patSearchFrom (p : Pat) (prev : Option Nat) (rest : List Nat) : Bool :=
  (bndStartOK p.lb prev rest && reRunFrom p.re p.rb prev rest) ||
  match rest with
  | [] => false
  | c :: cs => patSearchFrom p (some c) cs

/-- Embeds `re.MatchString(s)` for a compiled provider pattern. -/
def patMatch (p : Pat) (s : GoStr) : Bool := patSearchFrom p none s

theorem reRunFrom_sound {r : RE} {rb : Bnd} {prev : Option Nat} {rest : List Nat}
    (h : reRunFrom r rb prev rest = true) :
    ∃ mid post, rest = mid ++ post ∧ REAccept r mid := by
  induction rest generalizing r prev with
  | nil =>
      rw [reRunFrom] at h
      simp only [Bool.or_eq_true, Bool.and_eq_true] at h
      rcases h with ⟨h1, _⟩ | h1
      · exact ⟨[], [], rfl, reNullable_sound h1⟩
      · cases h1
  | cons c cs ih =>
      rw [reRunFrom] at h
      simp only [Bool.or_eq_true, Bool.and_eq_true] at h
      rcases h with ⟨h1, _⟩ | h1
      · exact ⟨[], c :: cs, rfl, reNullable_sound h1⟩
      · obtain ⟨mid, post, heq, hacc⟩ := ih h1
        exact ⟨c :: mid, post, by simp [heq], reDeriv_sound hacc⟩

theorem patSearchFrom_sound {p : Pat} {prev : Option Nat} {rest : List Nat}
    (h : patSearchFrom p prev rest = true) :
    ∃ pre mid post, rest = pre ++ mid ++ post ∧ REAccept p.re mid := by
  induction rest generalizing prev with
  | nil =>
      rw [patSearchFrom] at h
      simp only [Bool.or_eq_true, Bool.and_eq_true] at h
      rcases h with ⟨_, h1⟩ | h1
      · obtain ⟨mid, post, heq, hacc⟩ := reRunFrom_sound h1
        exact ⟨[], mid, post, by simp [heq], hacc⟩
      · cases h1
  | cons c cs ih =>
      rw [patSearchFrom] at h
      simp only [Bool.or_eq_true, Bool.and_eq_true] at h
      rcases h with ⟨_, h1⟩ | h1
      · obtain ⟨mid, post, heq, hacc⟩ := reRunFrom_sound h1
        exact ⟨[], mid, post, by simp [heq], hacc⟩
      · obtain ⟨pre, mid, post, heq, hacc⟩ := ih h1
        exact ⟨c :: pre, mid, post, by simp [heq], hacc⟩

/-- `patMatch` only succeeds when some infix of the input is in the pattern
language. -/
theorem patMatch_sound {p : Pat} {s : GoStr} (h : patMatch p s = true) :
    ∃ mid, mid <:+: s ∧ REAccept p.re mid := by
  obtain ⟨pre, mid, post, heq, hacc⟩ := patSearchFrom_sound h
  exact ⟨mid, ⟨pre, post, heq.symm⟩, hacc⟩

/-! Syntactic analyses of patterns, with soundness over `REAccept`. -/

/-- Does every byte accepted by the class satisfy `P`?  (Checked over the
byte range 0..255; `ccMatch` is false above it.) -/
def ccAll (P : Nat → Bool) (cc : CClass) : Bool :=
  (List.range 256).all fun b => !(ccMatch cc b) || P b

theorem ccAll_sound {P : Nat → Bool} {cc : CClass} (h : ccAll P cc = true)
    {b : Nat} (hb : ccMatch cc b = true) : P b = true := by
  have hlt : b < 256 := by
    have := hb
    unfold ccMatch at this
    simp only [Bool.and_eq_true, decide_eq_true_eq] at this
    exact this.1
  have := (List.all_eq_true.mp h) b (List.mem_range.mpr hlt)
  simp only [Bool.or_eq_true, Bool.not_eq_true'] at this
  rcases this with h1 | h1
  · rw [hb] at h1; cases h1
  · exact h1

/-- A lower bound on the length of every accepted word.  `emp` accepts no
word, so any bound is vacuously sound; a large one keeps `alt` precise. -/
def reMinLen : RE → Nat
  | .emp => 1000000
  | .eps => 0
  | .chc _ => 1
  | .cat a b => reMinLen a + reMinLen b
  | .alt a b => min (reMinLen a) (reMinLen b)
  | .star _ => 0
  | .repc _ lo _ => lo

theorem reMinLen_sound {r : RE} {w : List Nat} (h : REAccept r w) :
    reMinLen r ≤ w.length := by
  induction h with
  | eps => simp [reMinLen]
  | chc _ => simp [reMinLen]
  | cat _ _ iha ihb => simp only [reMinLen, List.length_append]; omega
  | altL _ iha => simp only [reMinLen]; omega
  | altR _ ihb => simp only [reMinLen]; omega
  | starNil => simp [reMinLen]
  | starCons _ _ _ _ _ => simp [reMinLen]
  | repc hlo _ _ => exact hlo

/-- Does every byte of every accepted word satisfy `P`? -/
def reAllBytes (P : Nat → Bool) : RE → Bool
  | .emp => true
  | .eps => true
  | .chc cc => ccAll P cc
  | .cat a b => reAllBytes P a && reAllBytes P b
  | .alt a b => reAllBytes P a && reAllBytes P b
  | .star a => reAllBytes P a
  | .repc cc _ hi => ccAll P cc || hi = some 0

theorem reAllBytes_sound {P : Nat → Bool} {r : RE} {w : List Nat}
    (hr : reAllBytes P r = true) (h : REAccept r w) :
    ∀ b ∈ w, P b = true := by
  induction h with
  | eps => intro b hb; cases hb
  | chc hc =>
      intro b hb
      rcases List.mem_singleton.mp hb with rfl
      exact ccAll_sound (by simpa [reAllBytes] using hr) hc
  | cat _ _ iha ihb =>
      rw [reAllBytes, Bool.and_eq_true] at hr
      intro b hb
      rcases List.mem_append.mp hb with hb | hb
      · exact iha hr.1 b hb
      · exact ihb hr.2 b hb
  | altL _ iha =>
      rw [reAllBytes, Bool.and_eq_true] at hr
      exact iha hr.1
  | altR _ ihb =>
      rw [reAllBytes, Bool.and_eq_true] at hr
      exact ihb hr.2
  | starNil => intro b hb; cases hb
  | starCons _ _ _ iha ihb =>
      intro b hb
      rcases List.mem_append.mp hb with hb | hb
      · exact iha (by simpa [reAllBytes] using hr) b hb
      · exact ihb (by simpa [reAllBytes] using hr) b hb
  | repc hlo hhi hall =>
      rename_i cc lo hi w'
      intro b hb
      rw [reAllBytes, Bool.or_eq_true] at hr
      rcases hr with hr | hr
      · exact ccAll_sound hr (hall b hb)
      · simp only [decide_eq_true_eq] at hr
        have := hhi 0 hr
        have : w' = [] := List.length_eq_zero.mp (by omega)
        subst this
        cases hb

/-- A lower bound on the number of bytes satisfying `P` in every accepted
word. -/
def reMinCount (P : Nat → Bool) : RE → Nat
  | .emp => 1000000
  | .eps => 0
  | .chc cc => if ccAll P cc then 1 else 0
  | .cat a b => reMinCount P a + reMinCount P b
  | .alt a b => min (reMinCount P a) (reMinCount P b)
  | .star _ => 0
  | .repc cc lo _ => if ccAll P cc then lo else 0

theorem reMinCount_sound {P : Nat → Bool} {r : RE} {w : List Nat}
    (h : REAccept r w) : reMinCount P r ≤ w.countP P := by
  induction h with
  | eps => simp [reMinCount]
  | chc hc =>
      rename_i cc b
      by_cases hall : ccAll P cc = true
      · simp only [reMinCount, hall, if_true, List.countP_cons, List.countP_nil]
        have := ccAll_sound hall hc
        simp [this]
      · simp [reMinCount, hall]
  | cat _ _ iha ihb => simp only [reMinCount, List.countP_append]; omega
  | altL _ iha => simp only [reMinCount]; omega
  | altR _ ihb => simp only [reMinCount]; omega
  | starNil => simp [reMinCount]
  | starCons _ _ _ _ _ => simp [reMinCount]
  | repc hlo hhi hall =>
      rename_i cc lo hi w'
      by_cases hcc : ccAll P cc = true
      · simp only [reMinCount, hcc, if_true]
        have : w'.countP P = w'.length := by
          rw [List.countP_eq_length]
          intro b hb
          exact ccAll_sound hcc (hall b hb)
        omega
      · simp [reMinCount, hcc]

/-! ### The provider token patterns of `secrets_detector.go` -/

/-- Literal byte. -/
def rchr (c : Nat) : RE := .chc ⟨false, [(c, c)]⟩

/-- Literal ASCII string. -/
def rlit (s : String) : RE := (gs s).foldr (fun c r => .cat (rchr c) r) .eps

/-- Both-case ranges for a byte, for `(?i)` literals. -/
def ciRanges (c : Nat) : List (Nat × Nat) :=
  if 65 ≤ c ∧ c ≤ 90 then [(c, c), (c + 32, c + 32)]
  else if 97 ≤ c ∧ c ≤ 122 then [(c - 32, c - 32), (c, c)]
  else [(c, c)]

/-- Case-insensitive literal ASCII string. -/
def rliti (s : String) : RE :=
  (gs s).foldr (fun c r => .cat (.chc ⟨false, ciRanges c⟩) r) .eps

/-- Positive character class. -/
def rcls (rs : List (Nat × Nat)) : RE := .chc ⟨false, rs⟩

/-- Counted repetition of a positive class. -/
def rrep (rs : List (Nat × Nat)) (lo : Nat) (hi : Option Nat) : RE :=
  .repc ⟨false, rs⟩ lo hi

/-- Counted repetition of a negated class. -/
def rrepn (rs : List (Nat × Nat)) (lo : Nat) (hi : Option Nat) : RE :=
  .repc ⟨true, rs⟩ lo hi

/-- `r?`. -/
def ropt (r : RE) : RE := .alt .eps r

/-- Concatenation of a list of expressions. -/
def rcat (l : List RE) : RE := l.foldr .cat .eps

/-- Alternation of a list of expressions. -/
def raltL (l : List RE) : RE := l.foldr .alt .emp

def rgAZ : Nat × Nat := (65, 90)
def rgaz : Nat × Nat := (97, 122)
def rgd : Nat × Nat := (48, 57)
def rgaf : Nat × Nat := (97, 102)

/-- `[A-Za-z0-9]`. -/
def clsAlnum : List (Nat × Nat) := [rgAZ, rgaz, rgd]

/-- `[A-Za-z0-9_-]` (also `[0-9A-Za-z\-_]`, `[a-zA-Z0-9_\-]`). -/
def clsWordHyp : List (Nat × Nat) := [rgAZ, rgaz, rgd, (95, 95), (45, 45)]

/-- `[A-Za-z0-9\-]` / `[A-Za-z0-9-]`. -/
def clsAlnumHyp : List (Nat × Nat) := [rgAZ, rgaz, rgd, (45, 45)]

/-- `[A-Za-z0-9._%+-]`. -/
def clsEmailLocal : List (Nat × Nat) :=
  [rgAZ, rgaz, rgd, (46, 46), (95, 95), (37, 37), (43, 43), (45, 45)]

/-- `[A-Za-z0-9.-]`. -/
def clsHostDot : List (Nat × Nat) := [rgAZ, rgaz, rgd, (46, 46), (45, 45)]

/-- `\s` (Go regexp: `[\t\n\f\r ]`). -/
def clsWS : List (Nat × Nat) := [(9, 10), (12, 13), (32, 32)]

/-- Embeds the `providerTokenRegex` table of `secrets_detector.go`: each Go
regular expression transcribed into the byte engine, with its edge `\b` / `^$`
boundary kinds. -/
def providerTokenRegex (name : String) : Pat :=
  match name with
  | "openai" =>
      ⟨.alt (rcat [rlit "sk-", rrep clsAlnum 48 (some 48)])
            (rcat [rlit "sk-", rrep clsWordHyp 1 none, rlit "T3BlbkFJ",
                   rrep clsWordHyp 1 none]), .word, .word⟩
  | "anthropic" =>
      ⟨rcat [rlit "sk-ant-api", rrep [rgd] 0 (some 2), rchr 45,
             rrep clsAlnumHyp 80 (some 120)], .word, .word⟩
  | "google" =>
      ⟨raltL [rcat [rlit "AIza", rrep clsWordHyp 35 (some 35)],
              rcat [rlit "AIzaSy", rrep clsWordHyp 33 (some 33)],
              rcat [rlit "AI", rrep clsWordHyp 30 none]], .word, .word⟩
  | "openrouter" =>
      ⟨rcat [rlit "sk-or-v1-", rrep [rgaz, rgd] 64 (some 64)], .word, .word⟩
  | "groq" => ⟨rcat [rlit "gsk_", rrep clsAlnum 20 none], .word, .word⟩
  | "mistral" => ⟨rrep clsAlnum 32 (some 32), .word, .word⟩
  | "elevenlabs" =>
      ⟨.alt (rrep [rgaz, rgd] 32 (some 32))
            (rcat [rlit "sk_", rrep [rgaz, rgd] 48 (some 48)]), .word, .word⟩
  | "supabase" =>
      ⟨rcat [rlit "sbp_", rrep [rgaf, rgd] 40 (some 40)], .word, .word⟩
  | "deepseek" =>
      ⟨rcat [rlit "sk-", rrep [rgaf, rgd] 32 (some 32)], .word, .word⟩
  | "xai" => ⟨rcat [rlit "xai-", rrep clsAlnum 80 (some 80)], .word, .word⟩
  | "aws" => ⟨rcat [rlit "AKIA", rrep [rgd, rgAZ] 16 (some 16)], .word, .word⟩
  | "database_url" =>
      ⟨rcat [raltL [rliti "postgres", rliti "mysql", rliti "mongodb",
                    rliti "redis"],
             rlit "://", rrepn [(58, 58)] 1 none, rchr 58,
             rrepn [(64, 64)] 1 none, rchr 64,
             rrepn ((47, 47) :: clsWS) 1 none], .free, .free⟩
  | "slack" =>
      ⟨raltL [rcat [rlit "xoxb-", rrep [rgd] 10 none, rchr 45,
                    rrep [rgd] 10 none, rchr 45, rrep clsAlnum 24 none],
              rcat [rlit "xoxp-", rrep [rgd] 10 none, rchr 45,
                    rrep [rgd] 10 none, rchr 45, rrep [rgd] 10 none, rchr 45,
                    rrep clsAlnum 24 none],
              rcat [rlit "xoxa-2-", rrep [rgd] 10 none, rchr 45,
                    rrep [rgd] 10 none, rchr 45, rrep [rgd] 10 none, rchr 45,
                    rrep clsAlnum 32 none],
              rcat [rlit "xoxs-", rrep clsAlnumHyp 20 none],
              rcat [rlit "xapp-1-", rrep clsAlnum 8 none, rchr 45,
                    rrep [rgd] 10 none, rchr 45, rrep clsAlnum 32 none],
              rcat [rlit "xoxe-1-", rrep clsAlnumHyp 32 none]], .word, .word⟩
  | "slack_webhook" =>
      ⟨rcat [rlit "https://hooks.slack.com/services/T",
             rrep [rgAZ, rgd] 7 none, rchr 47, rlit "B",
             rrep [rgAZ, rgd] 8 none, rchr 47, rrep clsAlnum 24 none],
       .anchor, .anchor⟩
  | "atlassian" =>
      ⟨raltL [rcat [rlit "Atlassian", rrep clsWS 1 none, rlit "API",
                    rrep clsWS 1 none, rlit "Token"],
              rcat [rlit "atlassian", ropt (rcls [(45, 45), (95, 95), (32, 32)]),
                    rlit "api", ropt (rcls [(45, 45), (95, 95), (32, 32)]),
                    rlit "token"],
              rcat [rrep clsEmailLocal 1 none, rchr 64, rrep clsHostDot 1 none,
                    rchr 58, rrep clsAlnum 24 (some 24)]], .word, .word⟩
  | "atlassian_url" =>
      ⟨rcat [rliti "http", ropt (rcls (ciRanges 115)), rlit "://",
             rrepn ((58, 58) :: (64, 64) :: clsWS) 1 none, rchr 58,
             rrep clsAlnum 16 (some 64), rchr 64, rrep clsHostDot 1 none,
             rchr 46, rliti "atlassian", rchr 46, rliti "net",
             rrepn clsWS 0 none], .word, .word⟩
  | "github_pat" =>
      ⟨rcat [rlit "github_pat_", rrep clsAlnum 22 (some 22), rchr 95,
             rrep clsAlnum 59 (some 59)], .word, .word⟩
  | "vantage" =>
      ⟨rcat [rlit "vntg_tkn_", rrep [rgaf, rgd] 40 (some 40)], .word, .word⟩
  | _ => ⟨.emp, .free, .free⟩

/-- Embeds the `providerDisplayType` table of `secrets_detector.go`. -/
def providerDisplayType (name : String) : String :=
  match name with
  | "openai" => "OpenAI API Key"
  | "anthropic" => "Anthropic API Key"
  | "google" => "Google Token"
  | "openrouter" => "OpenRouter API Key"
  | "groq" => "Groq API Key"
  | "mistral" => "Mistral API Key"
  | "elevenlabs" => "ElevenLabs API Key"
  | "supabase" => "Supabase Access Token"
  | "deepseek" => "DeepSeek API Key"
  | "xai" => "xAI API Key"
  | "aws" => "AWS Access Key"
  | "database_url" => "Database URL with Credentials"
  | "slack" => "Slack Token"
  | "slack_webhook" => "Slack Webhook URL"
  | "atlassian" => "Atlassian API Token"
  | "atlassian_url" => "Atlassian URL with Credentials"
  | "github_pat" => "GitHub Personal Access Token"
  | "vantage" => "Vantage API Token"
  | _ => ""

/-- Embeds `providerOrder` of `secrets_detector.go` (the fixed scan order). -/
def providerOrder : List String :=
  ["openai", "anthropic", "google", "openrouter", "groq",
   "mistral", "elevenlabs", "supabase", "deepseek", "xai",
   "aws", "database_url", "github_pat", "vantage", "slack",
   "slack_webhook", "atlassian", "atlassian_url"]

/-- The provider loop of `classifySecretValue`: the first provider in order
whose pattern matches. -/
def findProvider (s : GoStr) : Option String :=
  providerOrder.find? fun p => patMatch (providerTokenRegex p) s

/-! ### The generic high-entropy heuristic and `classifySecretValue` -/

/-- ASCII model of Go `strings.ToLower` (all inputs of interest are ASCII). -/
def goToLower (s : GoStr) : GoStr :=
  s.map fun b => if 65 ≤ b ∧ b ≤ 90 then b + 32 else b

/-- Go `strings.HasPrefix`. -/
def goHasPrefixB (s pre : GoStr) : Bool := pre.isPrefixOf s

/-- Go `strings.ContainsAny` (ASCII needles). -/
def goContainsAny (s : GoStr) (chars : GoStr) : Bool := s.any (chars.contains ·)

/-- Go `strings.Contains`: does `sub` occur as a contiguous infix of `s`? -/
def goContains (s sub : GoStr) : Bool :=
  (List.range (s.length + 1)).any fun i => sub.isPrefixOf (s.drop i)

theorem goContains_iff {s sub : GoStr} : goContains s sub = true ↔ sub <:+: s := by
  unfold goContains
  rw [List.any_eq_true]
  constructor
  · rintro ⟨i, _, hp⟩
    have hp := List.isPrefixOf_iff_prefix.mp hp
    obtain ⟨t, ht⟩ := hp
    exact ⟨s.take i, t, by rw [List.append_assoc, ht]; exact List.take_append_drop i s⟩
  · rintro ⟨u, v, huv⟩
    refine ⟨u.length, List.mem_range.mpr ?_, ?_⟩
    · have : (u ++ sub ++ v).length = s.length := by rw [huv]
      simp only [List.length_append] at this
      omega
    · rw [← huv, List.append_assoc, List.drop_left, List.isPrefixOf_iff_prefix]
      exact ⟨v, rfl⟩

/-- The frequency table of `shannonEntropy` in `secrets_detector.go`: bytes
at or above 128 are never counted. -/
def countB (s : GoStr) (b : Nat) : Nat :=
  if b < 128 then s.countP (fun x => x = b) else 0

/-- Embeds `shannonEntropy` of `secrets_detector.go` over the reals:
`h -= p * log2 p` summed over the 256 frequency slots. -/
noncomputable def shannonEntropy (s : GoStr) : ℝ :=
  if s.length = 0 then 0
  else ∑ b ∈ Finset.range 256,
    (if countB s b = 0 then 0
     else -(((countB s b : ℝ) / s.length) * Real.logb 2 ((countB s b : ℝ) / s.length)))

/-- Embeds `isHighEntropy` of `secrets_detector.go`: length at least 24, no
leading `-`, none of `@ / =`, lowercase must not contain `http`, no
whitespace, Shannon entropy at least 3.8 bits per byte. -/
def isHighEntropy (s : GoStr) : Prop :=
  24 ≤ s.length ∧
  goHasPrefixB s (gs "-") = false ∧
  goContainsAny s (gs "@/=") = false ∧
  goContains (goToLower s) (gs "http") = false ∧
  goContainsAny s (gs " \t\n\r") = false ∧
  (3.8 : ℝ) ≤ shannonEntropy s

open Classical in
/-- Embeds `classifySecretValue` of `secrets_detector.go`: first matching
provider pattern wins with HIGH confidence; otherwise the generic
high-entropy heuristic with LOW confidence; otherwise not a secret. -/
noncomputable def classifySecretValue (s : GoStr) : GoStr × GoStr × Bool :=
  match findProvider s with
  | some p => (gs (providerDisplayType p), gs "HIGH", true)
  | none =>
      if isHighEntropy s then (gs "Generic Secret", gs "LOW", true)
      else ([], [], false)

/-- **C8.** For every string matched by no provider pattern, classify returns
`("Generic Secret", "LOW", true)` iff: length at least 24, no leading `-`,
no occurrence of `@`, `/` or `=`, the lowercased value does not contain
`http`, no whitespace, and Shannon entropy at least 3.8 bits per character;
otherwise classify reports no secret. -/
theorem C8_generic_heuristic (s : GoStr)
    (hnp : ∀ p ∈ providerOrder, patMatch (providerTokenRegex p) s = false) :
    (classifySecretValue s = (gs "Generic Secret", gs "LOW", true) ↔
      (24 ≤ s.length ∧
       goHasPrefixB s (gs "-") = false ∧
       goContainsAny s (gs "@/=") = false ∧
       goContains (goToLower s) (gs "http") = false ∧
       goContainsAny s (gs " \t\n\r") = false ∧
       (3.8 : ℝ) ≤ shannonEntropy s)) ∧
    (¬ (24 ≤ s.length ∧
        goHasPrefixB s (gs "-") = false ∧
        goContainsAny s (gs "@/=") = false ∧
        goContains (goToLower s) (gs "http") = false ∧
        goContainsAny s (gs " \t\n\r") = false ∧
        (3.8 : ℝ) ≤ shannonEntropy s) →
      classifySecretValue s = ([], [], false)) := by
  have hfp : findProvider s = none := by
    apply List.find?_eq_none.mpr
    intro p hp
    simp [hnp p hp]
  rw [show (24 ≤ s.length ∧
       goHasPrefixB s (gs "-") = false ∧
       goContainsAny s (gs "@/=") = false ∧
       goContains (goToLower s) (gs "http") = false ∧
       goContainsAny s (gs " \t\n\r") = false ∧
       (3.8 : ℝ) ≤ shannonEntropy s) = isHighEntropy s from rfl]
  constructor
  · by_cases h : isHighEntropy s
    · simp only [classifySecretValue, hfp, if_pos h]
      exact iff_of_true trivial h
    · simp only [classifySecretValue, hfp, if_neg h]
      constructor
      · intro hcontra
        exact absurd (congrArg (fun t => t.2.2) hcontra) (by decide)
      · intro hh
        exact absurd hh h
  · intro hn
    simp only [classifySecretValue, hfp, if_neg hn]

/-- Witness for C8 at the concrete input `"ab"`: matched by no provider
pattern, too short for the heuristic, so classified as no secret. -/
theorem C8_generic_heuristic_witness :
    (∀ p ∈ providerOrder, patMatch (providerTokenRegex p) (gs "ab") = false) ∧
    ((classifySecretValue (gs "ab") = (gs "Generic Secret", gs "LOW", true) ↔
      (24 ≤ (gs "ab").length ∧
       goHasPrefixB (gs "ab") (gs "-") = false ∧
       goContainsAny (gs "ab") (gs "@/=") = false ∧
       goContains (goToLower (gs "ab")) (gs "http") = false ∧
       goContainsAny (gs "ab") (gs " \t\n\r") = false ∧
       (3.8 : ℝ) ≤ shannonEntropy (gs "ab"))) ∧
     (¬ (24 ≤ (gs "ab").length ∧
         goHasPrefixB (gs "ab") (gs "-") = false ∧
         goContainsAny (gs "ab") (gs "@/=") = false ∧
         goContains (goToLower (gs "ab")) (gs "http") = false ∧
         goContainsAny (gs "ab") (gs " \t\n\r") = false ∧
         (3.8 : ℝ) ≤ shannonEntropy (gs "ab")) →
       classifySecretValue (gs "ab") = ([], [], false))) :=
  ⟨by decide, C8_generic_heuristic (gs "ab") (by decide)⟩

/-! Concrete detector facts used by the secret-scan theorems: the 24-byte
value `secretV` is detected by the generic heuristic, while `secretW`, which
embeds it after an `@`, is not detected at all. -/

/-- A 24-byte value of 24 distinct lowercase letters. -/
def secretV : GoStr := gs "abcdefghijklmnopqrstuvwx"

/-- `secretV` preceded by `@`: contains `secretV`, but the `@` disables the
high-entropy heuristic. -/
def secretW : GoStr := gs "@abcdefghijklmnopqrstuvwx"

theorem shannonEntropy_secretV : shannonEntropy secretV = Real.logb 2 24 := by
  unfold shannonEntropy
  rw [if_neg (by decide)]
  have hcount : ∀ b ∈ Finset.range 256,
      countB secretV b = (if b ∈ Finset.Icc 97 120 then 1 else 0) := by decide
  have hlen : (secretV.length : ℝ) = 24 := by norm_num [secretV, gs]
  have hterm : ∀ b ∈ Finset.range 256,
      (if countB secretV b = 0 then (0:ℝ)
       else -(((countB secretV b : ℝ) / secretV.length) *
              Real.logb 2 ((countB secretV b : ℝ) / secretV.length))) =
      (if b ∈ Finset.Icc 97 120
       then -((1 / 24 : ℝ) * Real.logb 2 (1 / 24)) else 0) := by
    intro b hb
    rw [hcount b hb]
    by_cases hbi : b ∈ Finset.Icc 97 120
    · rw [if_pos hbi, if_pos hbi, if_neg (by norm_num), hlen]
      norm_num
    · rw [if_neg hbi, if_neg hbi, if_pos rfl]
  rw [Finset.sum_congr rfl hterm, Finset.sum_ite_mem,
    show Finset.range 256 ∩ Finset.Icc 97 120 = Finset.Icc 97 120 from by decide,
    Finset.sum_const, Nat.card_Icc]
  have h24 : Real.logb 2 ((1:ℝ)/24) = -Real.logb 2 24 := by
    rw [one_div, Real.logb_inv]
  rw [h24]
  push_cast
  ring

theorem entropy_bound_secretV : (3.8 : ℝ) ≤ Real.logb 2 24 := by
  have h2 : (0:ℝ) < Real.log 2 := Real.log_pos (by norm_num)
  have hle : Real.log ((2:ℝ) ^ (19:ℕ)) ≤ Real.log ((24:ℝ) ^ (5:ℕ)) := by
    apply Real.log_le_log (by positivity)
    norm_num
  rw [Real.log_pow, Real.log_pow] at hle
  rw [Real.logb, le_div_iff₀ h2]
  push_cast at hle
  nlinarith [hle, h2]

theorem isHighEntropy_secretV : isHighEntropy secretV := by
  refine ⟨by decide, by decide, by decide, by decide, by decide, ?_⟩
  rw [shannonEntropy_secretV]
  exact entropy_bound_secretV

theorem classify_secretV :
    classifySecretValue secretV = (gs "Generic Secret", gs "LOW", true) := by
  have hfp : findProvider secretV = none := by decide
  simp only [classifySecretValue, hfp, if_pos isHighEntropy_secretV]

theorem classify_secretW : classifySecretValue secretW = ([], [], false) := by
  have hfp : findProvider secretW = none := by decide
  have hne : ¬ isHighEntropy secretW := by
    intro h
    exact absurd h.2.2.1 (by decide)
  simp only [classifySecretValue, hfp, if_neg hne]

/-! ### Shape analysis of redacted values

A detected secret can never be equal to—or survive as an infix of—its own
redaction: redactions are at most 4 arbitrary bytes plus stars and dots,
while every provider pattern demands either 5+ star-free bytes or 5+
alphanumerics, and the entropy heuristic demands 24+ bytes. -/

/-- `[A-Za-z0-9]` as a byte test. -/
def isAlnumB (b : Nat) : Bool :=
  (48 ≤ b && b ≤ 57) || (65 ≤ b && b ≤ 90) || (97 ≤ b && b ≤ 122)

theorem countP_replicate_zero {P : Nat → Bool} (hP : P 42 = false) (k : Nat) :
    (List.replicate k 42).countP P = 0 := by
  induction k with
  | zero => simp
  | succ n ih => simp [List.replicate_succ, List.countP_cons, ih, hP]

/-- Any infix of `p ++ stars ++ d` (at least one star) that avoids stars fits
inside `p` or inside `d`. -/
theorem starfree_infix_bound {p d w : List Nat} {k : Nat} (hk : 1 ≤ k)
    (hw : w <:+: (p ++ List.replicate k 42 ++ d))
    (hns : ∀ b ∈ w, b ≠ 42) : w.length ≤ max p.length d.length := by
  obtain ⟨u, v, huv⟩ := hw
  by_cases hw0 : w = []
  · simp [hw0]
  have hwpos : 0 < w.length := List.length_pos.mpr hw0
  have hlen : u.length + w.length + v.length =
      p.length + k + d.length := by
    have := congrArg List.length huv
    simp only [List.length_append, List.length_replicate] at this
    omega
  by_cases hcase1 : u.length + w.length ≤ p.length
  · exact (by omega : w.length ≤ p.length).trans (le_max_left _ _)
  · by_cases hcase2 : p.length + k ≤ u.length
    · exact (by omega : w.length ≤ d.length).trans (le_max_right _ _)
    · exfalso
      have hj1 : u.length ≤ max u.length p.length := le_max_left _ _
      have hj2 : p.length ≤ max u.length p.length := le_max_right _ _
      have hj3 : max u.length p.length < u.length + w.length := by
        rcases max_cases u.length p.length with ⟨hm, _⟩ | ⟨hm, _⟩ <;> omega
      have hj4 : max u.length p.length < p.length + k := by
        rcases max_cases u.length p.length with ⟨hm, _⟩ | ⟨hm, _⟩ <;> omega
      have hL : (u ++ w ++ v)[max u.length p.length]? = some 42 := by
        rw [huv]
        rw [List.getElem?_append_left (by simp [List.length_append]; omega)]
        rw [List.getElem?_append_right (by omega)]
        rw [List.getElem?_eq_getElem (by simp; omega)]
        simp
      rw [List.append_assoc, List.getElem?_append_right hj1,
        List.getElem?_append_left (by omega),
        List.getElem?_eq_getElem (by omega)] at hL
      have hmem : w[max u.length p.length - u.length] ∈ w :=
        List.getElem_mem _
      exact hns _ hmem (by simpa using hL)

/-- Every star-free infix of a redacted value has at most 4 bytes. -/
theorem starfree_infix_redact {s w : List Nat} (hw : w <:+: redactSecret s)
    (hns : ∀ b ∈ w, b ≠ 42) : w.length ≤ 4 := by
  unfold redactSecret repeatByte starByte at hw
  by_cases h0 : s.length = 0
  · rw [if_pos h0] at hw
    have : w = [] := List.sublist_nil.mp hw.sublist
    simp [this]
  · rw [if_neg h0] at hw
    by_cases h8 : s.length ≤ 4 + 4
    · rw [if_pos h8] at hw
      have hw' : w <:+: (([] : List Nat) ++ List.replicate s.length 42 ++ []) := by
        simpa using hw
      have := starfree_infix_bound (by omega) hw' hns
      simpa using this.trans (by norm_num)
    · rw [if_neg h8] at hw
      by_cases h16 : s.length > 16
      · rw [if_pos h16] at hw
        have := starfree_infix_bound (p := s.take 4) (d := gs "...")
          (by norm_num : (1:Nat) ≤ 16 - 4) hw hns
        have hlt : (s.take 4).length ≤ 4 := by simp
        have hd : (gs "...").length = 3 := by decide
        omega
      · rw [if_neg h16] at hw
        have hw' : w <:+: (s.take 4 ++ List.replicate (s.length - 4) 42 ++ []) := by
          simpa using hw
        have := starfree_infix_bound (by omega) hw' hns
        have hlt : (s.take 4).length ≤ 4 := by simp
        simp only [List.length_nil] at this
        omega

/-- A redacted value contains at most 4 alphanumeric bytes. -/
theorem countP_redact_le (s : GoStr) :
    (redactSecret s).countP isAlnumB ≤ 4 := by
  have hstar : isAlnumB 42 = false := by decide
  unfold redactSecret repeatByte starByte
  by_cases h0 : s.length = 0
  · simp [h0]
  · rw [if_neg h0]
    by_cases h8 : s.length ≤ 4 + 4
    · rw [if_pos h8]
      simp [countP_replicate_zero hstar]
    · rw [if_neg h8]
      have htake : (s.take 4).countP isAlnumB ≤ 4 := by
        calc (s.take 4).countP isAlnumB ≤ (s.take 4).length :=
              List.countP_le_length _
        _ ≤ 4 := by simp
      by_cases h16 : s.length > 16
      · rw [if_pos h16]
        have hdots : (gs "...").countP isAlnumB = 0 := by decide
        simp only [List.countP_append, countP_replicate_zero hstar, hdots]
        omega
      · rw [if_neg h16]
        simp only [List.countP_append, countP_replicate_zero hstar]
        omega

/-- Length of a redacted value. -/
theorem redact_length (s : GoStr) :
    (redactSecret s).length =
      if s.length = 0 then 0
      else if s.length ≤ 8 then s.length
      else if s.length ≤ 16 then s.length
      else 19 := by
  unfold redactSecret repeatByte
  by_cases h0 : s.length = 0
  · simp [h0]
  · by_cases h8 : s.length ≤ 8
    · simp [h0, h8, show s.length ≤ 4 + 4 from by omega]
    · by_cases h16 : s.length ≤ 16
      · simp [h0, h8, h16, show ¬ s.length ≤ 4 + 4 from by omega,
          show ¬ s.length > 16 from by omega, List.length_take]
        omega
      · have hd : (gs "...").length = 3 := by decide
        simp [h0, h8, h16, show ¬ s.length ≤ 4 + 4 from by omega,
          show s.length > 16 from by omega, List.length_take, hd]
        omega

/-- Per-provider certificate: each pattern requires at least 5 star-free
bytes or at least 5 alphanumeric bytes. -/
theorem patCertificate : ∀ p ∈ providerOrder,
    (reAllBytes (fun b => !(b == 42)) (providerTokenRegex p).re = true ∧
     5 ≤ reMinLen (providerTokenRegex p).re) ∨
    5 ≤ reMinCount isAlnumB (providerTokenRegex p).re := by decide

/-- Core redaction-totality lemma: a value the detector classifies as found
never occurs inside its own redaction (in particular it differs from it). -/
theorem classifyFound_not_infix_redact {v : GoStr}
    (hf : (classifySecretValue v).2.2 = true) : ¬ v <:+: redactSecret v := by
  intro hinf
  rcases hp : findProvider v with _ | p
  · have hent : isHighEntropy v := by
      by_contra hne
      rw [classifySecretValue] at hf
      rw [hp] at hf
      rw [if_neg hne] at hf
      exact absurd hf (by decide)
    have h24 := hent.1
    have hlen := hinf.length_le
    have hrl := redact_length v
    split_ifs at hrl <;> omega
  · have hmem := List.mem_of_find?_eq_some hp
    have hmatch := List.find?_some hp
    obtain ⟨mid, hmidinf, hacc⟩ := patMatch_sound hmatch
    have hmid2 : mid <:+: redactSecret v := hmidinf.trans hinf
    rcases patCertificate p hmem with ⟨hsf, hml⟩ | hmc
    · have hns : ∀ b ∈ mid, b ≠ 42 := by
        intro b hb
        have := reAllBytes_sound hsf hacc b hb
        simpa using this
      have hle4 := starfree_infix_redact hmid2 hns
      have := reMinLen_sound hacc
      omega
    · have hcnt := reMinCount_sound (P := isAlnumB) hacc
      have hsub : mid.countP isAlnumB ≤ (redactSecret v).countP isAlnumB :=
        List.Sublist.countP_le isAlnumB hmid2.sublist
      have := countP_redact_le v
      omega

/-! ### The secret scan context (`part_014`, `secrets_redactor.go`, `part_016`) -/

/-- A decoded JSON/YAML value (Go `interface{}` after generic decoding).
Objects are association lists; Go map iteration order is unspecified, the
list order stands for one such order. -/
inductive GoValue where
  | vNull : GoValue
  | vBool : Bool → GoValue
  | vNum : Int → GoValue
  | vStr : GoStr → GoValue
  | vArr : List GoValue → GoValue
  | vObj : List (GoStr × GoValue) → GoValue

/-- Embeds the `SecretFinding` struct of `part_016`.  `occurrences` is the
`map[string][]int` as an association list. -/
structure SecretFinding where
  kind : GoStr
  key : GoStr
  value : GoStr
  occurrences : List (GoStr × List Int)
  valueHash : GoStr
  serverName : GoStr
  confidence : GoStr

/-- Look up a file's occurrence lines (Go map read, `nil` for absent). -/
def occGet (occ : List (GoStr × List Int)) (file : GoStr) : List Int :=
  match occ.find? (fun e => decide (e.1 = file)) with
  | some e => e.2
  | none => []

/-- Go map assignment `occ[file] = lines`. -/
def occSet (occ : List (GoStr × List Int)) (file : GoStr) (lines : List Int) :
    List (GoStr × List Int) :=
  if occ.any (fun e => decide (e.1 = file)) then
    occ.map fun e => if e.1 = file then (e.1, lines) else e
  else occ ++ [(file, lines)]

/-- Go `occ[file] = append(occ[file], lines...)`. -/
def occAppend (occ : List (GoStr × List Int)) (file : GoStr) (lines : List Int) :
    List (GoStr × List Int) :=
  occSet occ file (occGet occ file ++ lines)

/-- Embeds `NewSecretFinding` of `part_016`.  The SHA-256 hex digest of the
raw value is abstracted as the `hashHex` parameter: the scanner only ever
compares digests for equality. -/
def NewSecretFinding (hashHex : GoStr → GoStr)
    (serverName secretKind key rawValue confidence filePath : GoStr)
    (line : Int) : SecretFinding :=
  { kind := secretKind
    key := key
    value := redactSecret rawValue
    valueHash := hashHex rawValue
    serverName := serverName
    confidence := confidence
    occurrences := [(filePath, [line])] }

/-- Embeds `SecretFinding` merging inside `FindingSet.Add`: append the
incoming occurrences file by file. -/
def mergeFinding (existing incoming : SecretFinding) : SecretFinding :=
  { existing with
    occurrences := incoming.occurrences.foldl
      (fun occ e => occAppend occ e.1 e.2) existing.occurrences }

/-- Embeds `FindingSet.Add` of `part_016`: group by `valueHash`; merge
occurrences into the existing entry, else append the incoming finding.
The `byHash` Go map is modelled as an association list in insertion order. -/
def findingAdd : List SecretFinding → SecretFinding → List SecretFinding
  | [], inc => [inc]
  | f :: rest, inc =>
      if f.valueHash = inc.valueHash then mergeFinding f inc :: rest
      else f :: findingAdd rest inc

/-- Embeds `dedupeAndSortLines` of `part_016`: drop duplicates keeping first
occurrences, then sort ascending. -/
def dedupeAndSortLines (lines : List Int) : List Int :=
  if lines.length ≤ 1 then lines
  else ((lines.foldl (fun acc x => if x ∈ acc then acc else acc ++ [x]) []).mergeSort
    fun a b => decide (a ≤ b))

/-- Embeds `compareFindings` of `part_016`: strict ordering by
(server name, kind, key, value hash) with byte-lexicographic string order. -/
def goLess : GoStr → GoStr → Bool
  | [], [] => false
  | [], _ :: _ => true
  | _ :: _, [] => false
  | a :: as, b :: bs => if a < b then true else if b < a then false else goLess as bs

def compareFindings (a b : SecretFinding) : Bool :=
  if a.serverName ≠ b.serverName then goLess a.serverName b.serverName
  else if a.kind ≠ b.kind then goLess a.kind b.kind
  else if a.key ≠ b.key then goLess a.key b.key
  else goLess a.valueHash b.valueHash

/-- Embeds `FindingSet.ListSorted` of `part_016`: normalize each finding's
per-file lines, then sort by `compareFindings`. -/
def ListSorted (set : List SecretFinding) : List SecretFinding :=
  ((set.map fun f =>
    { f with occurrences := f.occurrences.map fun e => (e.1, dedupeAndSortLines e.2) }).mergeSort
    fun a b => !(compareFindings b a))

/-- Embeds `locateLines` of `part_016`: 1-based indices of the lines (split
on the newline byte) containing the token. -/
def locateLines (content token : GoStr) : List Int :=
  if token = [] ∨ content = [] then []
  else ((content.splitOn 10).enum.filterMap fun e =>
    if goContains e.2 token then some ((e.1 : Int) + 1) else none)

/-- Embeds `secretScanContext` of `part_014`.  The `detector` and `redactor`
fields are fixed to `defaultDetector{}` (that is, `classifySecretValue`) and
`redactSecret`, exactly as `newSecretScanContext` sets them; the SHA-256
digest is abstracted by `hashHex`. -/
structure SecretScanCtx where
  filePath : GoStr
  fileContent : GoStr
  findings : List SecretFinding
  currentServer : GoStr
  originalFileContent : GoStr
  hashHex : GoStr → GoStr

/-- Embeds `newSecretScanContext` of `part_014`. -/
def newSecretScanContext (hashHex : GoStr → GoStr)
    (filePath fileContent : GoStr) : SecretScanCtx :=
  { filePath := filePath
    fileContent := fileContent
    findings := []
    currentServer := []
    originalFileContent := fileContent
    hashHex := hashHex }

/-- Fuel-indexed scanner behind `goReplaceAll`: the fuel bounds the number
of bytes consumed, so `s.length` fuel always suffices. -/
def goReplaceAllF : Nat → GoStr → GoStr → GoStr → GoStr
  | 0, s, _, _ => s
  | _ + 1, [], _, _ => []
  | fuel + 1, c :: rest, old, new =>
      if old.isPrefixOf (c :: rest) then
        new ++ goReplaceAllF fuel ((c :: rest).drop old.length) old new
      else c :: goReplaceAllF fuel rest old new

/-- Embeds `bytes.ReplaceAll(s, old, new)`: replace every non-overlapping
occurrence of `old`, scanning left to right. -/
def goReplaceAll (s old new : GoStr) : GoStr :=
  if old = [] then s else goReplaceAllF s.length s old new

open Classical in
/-- Embeds `secretScanContext.handleString` of `secrets_redactor.go`:
classify the string; on a find, build the finding (overriding its occurrence
lines when `locateLines` found any), add it to the finding set, globally
replace the raw bytes in the file buffer, and return the redacted string. -/
noncomputable def handleString (c : SecretScanCtx) (dotPath s : GoStr) :
    GoStr × SecretScanCtx :=
  if s = [] then (s, c)
  else if (classifySecretValue s).2.2 = true then
    let secretKind := (classifySecretValue s).1
    let confidence := (classifySecretValue s).2.1
    let redacted := redactSecret s
    let lines := locateLines c.originalFileContent s
    let finding0 := NewSecretFinding c.hashHex c.currentServer secretKind
      dotPath s confidence c.filePath 0
    let finding := if lines ≠ [] then
        { finding0 with occurrences := occSet finding0.occurrences c.filePath lines }
      else finding0
    (redacted,
     { c with findings := findingAdd c.findings finding,
              fileContent := goReplaceAll c.fileContent s redacted })
  else (s, c)

/-- Embeds `childPath` of `part_014` for a map key. -/
def childPath (parent key : GoStr) : GoStr :=
  if parent = [] then key else parent ++ gs "." ++ key

/-- Embeds `childPath` of `part_014` for a slice index (`parent[i]`). -/
def childPathIdx (parent : GoStr) (i : Nat) : GoStr :=
  parent ++ gs "[" ++ gs (toString i) ++ gs "]"

mutual
/-- Embeds `secretScanContext.Traverse` of `part_014`: walk the decoded
value, redacting string leaves and recording findings. -/
noncomputable def Traverse (c : SecretScanCtx) (data : GoValue) (dotPath : GoStr) :
    GoValue × SecretScanCtx :=
  match data with
  | .vObj fields =>
      let r := TraverseFields c fields dotPath
      (.vObj r.1, r.2)
  | .vArr items =>
      let r := TraverseItems c items dotPath 0
      (.vArr r.1, r.2)
  | .vStr s =>
      let r := handleString c dotPath s
      (.vStr r.1, r.2)
  | d => (d, c)

/-- Map branch of `Traverse` (one fixed iteration order of the Go map). -/
noncomputable def TraverseFields (c : SecretScanCtx)
    (fields : List (GoStr × GoValue)) (dotPath : GoStr) :
    List (GoStr × GoValue) × SecretScanCtx :=
  match fields with
  | [] => ([], c)
  | (k, v) :: rest =>
      let r1 := Traverse c v (childPath dotPath k)
      let r2 := TraverseFields r1.2 rest dotPath
      ((k, r1.1) :: r2.1, r2.2)

/-- Slice branch of `Traverse`. -/
noncomputable def TraverseItems (c : SecretScanCtx) (items : List GoValue)
    (dotPath : GoStr) (i : Nat) : List GoValue × SecretScanCtx :=
  match items with
  | [] => ([], c)
  | v :: rest =>
      let r1 := Traverse c v (childPathIdx dotPath i)
      let r2 := TraverseItems r1.2 rest dotPath (i + 1)
      (r1.1 :: r2.1, r2.2)
end

/-- Embeds `secretScanContext.TraverseServer` of `part_014`. -/
noncomputable def TraverseServer (c : SecretScanCtx) (serverName : GoStr)
    (data : GoValue) : GoValue × SecretScanCtx :=
  Traverse { c with currentServer := serverName } data []

open Classical in
/-- The value `handleString` returns for a leaf: the redaction when the
detector finds a secret, the leaf itself otherwise. -/
noncomputable def leafRedact (s : GoStr) : GoStr :=
  if s = [] then s
  else if (classifySecretValue s).2.2 = true then redactSecret s else s

mutual
/-- Structure-preserving string-leaf map (specification-side helper). -/
noncomputable def mapStringLeaves (f : GoStr → GoStr) : GoValue → GoValue
  | .vObj fields => .vObj (mapLeavesFields f fields)
  | .vArr items => .vArr (mapLeavesItems f items)
  | .vStr s => .vStr (f s)
  | d => d

noncomputable def mapLeavesFields (f : GoStr → GoStr) :
    List (GoStr × GoValue) → List (GoStr × GoValue)
  | [] => []
  | (k, v) :: rest => (k, mapStringLeaves f v) :: mapLeavesFields f rest

noncomputable def mapLeavesItems (f : GoStr → GoStr) :
    List GoValue → List GoValue
  | [] => []
  | v :: rest => mapStringLeaves f v :: mapLeavesItems f rest
end

theorem handleString_fst (c : SecretScanCtx) (dotPath s : GoStr) :
    (handleString c dotPath s).1 = leafRedact s := by
  unfold handleString leafRedact
  by_cases h0 : s = []
  · simp [h0]
  · by_cases hf : (classifySecretValue s).2.2 = true
    · simp [h0, hf]
    · simp [h0, hf]

mutual
/-- The redacted tree returned by `Traverse` is the pure leaf map of the
input by `leafRedact`: the context threading never influences returned
values. -/
theorem Traverse_fst (c : SecretScanCtx) (data : GoValue) (dotPath : GoStr) :
    (Traverse c data dotPath).1 = mapStringLeaves leafRedact data := by
  match data with
  | .vObj fields =>
      rw [Traverse, mapStringLeaves]
      exact congrArg GoValue.vObj (TraverseFields_fst c fields dotPath)
  | .vArr items =>
      rw [Traverse, mapStringLeaves]
      exact congrArg GoValue.vArr (TraverseItems_fst c items dotPath 0)
  | .vStr s =>
      rw [Traverse, mapStringLeaves]
      exact congrArg GoValue.vStr (handleString_fst c dotPath s)
  | .vNull => simp [Traverse, mapStringLeaves]
  | .vBool b => simp [Traverse, mapStringLeaves]
  | .vNum n => simp [Traverse, mapStringLeaves]

theorem TraverseFields_fst (c : SecretScanCtx)
    (fields : List (GoStr × GoValue)) (dotPath : GoStr) :
    (TraverseFields c fields dotPath).1 = mapLeavesFields leafRedact fields := by
  match fields with
  | [] => rw [TraverseFields, mapLeavesFields]
  | (k, v) :: rest =>
      rw [TraverseFields, mapLeavesFields]
      simp only
      rw [Traverse_fst c v (childPath dotPath k),
        TraverseFields_fst (Traverse c v (childPath dotPath k)).2 rest dotPath]

theorem TraverseItems_fst (c : SecretScanCtx) (items : List GoValue)
    (dotPath : GoStr) (i : Nat) :
    (TraverseItems c items dotPath i).1 = mapLeavesItems leafRedact items := by
  match items with
  | [] => rw [TraverseItems, mapLeavesItems]
  | v :: rest =>
      rw [TraverseItems, mapLeavesItems]
      simp only
      rw [Traverse_fst c v (childPathIdx dotPath i),
        TraverseItems_fst (Traverse c v (childPathIdx dotPath i)).2 rest dotPath (i + 1)]
end

/-- **C1 (amended).** After secret scanning, the returned server declaration
is the input with every string leaf classified as found replaced by its
redaction; for every detected value the redaction differs from the raw value
and does not even contain it as a substring.  (A leaf that strictly embeds a
detected value inside a longer string that is not itself classified is
returned unchanged — see the counterexample.) -/
theorem C1_redaction (c : SecretScanCtx) (serverName : GoStr) (data : GoValue) :
    (TraverseServer c serverName data).1 = mapStringLeaves leafRedact data ∧
    ∀ v : GoStr, (classifySecretValue v).2.2 = true →
      leafRedact v = redactSecret v ∧ redactSecret v ≠ v ∧
      ¬ v <:+: redactSecret v := by
  constructor
  · unfold TraverseServer
    exact Traverse_fst _ data []
  · intro v hf
    have hne : v ≠ [] := by
      intro h
      subst h
      have hp : findProvider [] = none := by decide
      have hent : ¬ isHighEntropy [] := by
        intro h
        have := h.1
        simp at this
      rw [classifySecretValue, hp, if_neg hent] at hf
      exact absurd hf (by decide)
    have hni : ¬ v <:+: redactSecret v := classifyFound_not_infix_redact hf
    refine ⟨?_, ?_, hni⟩
    · unfold leafRedact
      rw [if_neg hne, if_pos hf]
    · intro h
      apply hni
      rw [h]

/-- Witness for C1 at a concrete scan of a one-leaf server whose value is
`secretV`; the digest function is instantiated with the identity (the
returned declaration does not depend on it). -/
theorem C1_redaction_witness :
    ((TraverseServer (newSecretScanContext (fun s => s) (gs "cfg.json") secretV)
        (gs "srv") (GoValue.vStr secretV)).1 =
      mapStringLeaves leafRedact (GoValue.vStr secretV)) ∧
    (leafRedact secretV = redactSecret secretV ∧ redactSecret secretV ≠ secretV ∧
      ¬ secretV <:+: redactSecret secretV) :=
  ⟨(C1_redaction _ _ _).1,
   (C1_redaction (newSecretScanContext (fun s => s) (gs "cfg.json") secretV)
     (gs "srv") (GoValue.vStr secretV)).2 secretV (by rw [classify_secretV])⟩

/-- The server declaration refuting C1 as stated: leaf `a` holds the
detected secret `secretV`, leaf `b` embeds it behind an `@`. -/
def cexServer : GoValue :=
  .vObj [(gs "a", .vStr secretV), (gs "b", .vStr secretW)]

/-- **C1 (counterexample).** Scanning `cexServer` classifies `secretV` as
found (leaf `a` is redacted), yet the returned declaration still has the
string leaf `b` = `"@" ++ secretV`, which contains the raw bytes of
`secretV` as a substring: the claimed invariant fails. -/
theorem C1_counterexample :
    (classifySecretValue secretV).2.2 = true ∧
    (TraverseServer (newSecretScanContext (fun s => s) (gs "cfg.json") secretW)
        (gs "srv") cexServer).1 =
      GoValue.vObj [(gs "a", .vStr (redactSecret secretV)),
                    (gs "b", .vStr secretW)] ∧
    secretV <:+: secretW := by
  have h1 : leafRedact secretV = redactSecret secretV := by
    unfold leafRedact
    rw [if_neg (by decide), if_pos (by rw [classify_secretV])]
  have h2 : leafRedact secretW = secretW := by
    unfold leafRedact
    rw [if_neg (by decide), if_neg (by rw [classify_secretW]; decide)]
  refine ⟨by rw [classify_secretV], ?_, ⟨gs "@", [], by decide⟩⟩
  unfold TraverseServer
  rw [Traverse_fst]
  unfold cexServer
  rw [mapStringLeaves]
  rw [mapLeavesFields, mapLeavesFields, mapLeavesFields]
  rw [mapStringLeaves, mapStringLeaves, h1, h2]

/-! ### Lemmas about the finding set (for C5) -/

theorem goLess_irrefl (a : GoStr) : goLess a a = false := by
  induction a with
  | nil => rfl
  | cons x xs ih => simp [goLess, ih]

theorem goLess_asymm {a b : GoStr} (h : goLess a b = true) :
    goLess b a = false := by
  induction a generalizing b with
  | nil =>
      cases b with
      | nil => simpa [goLess] using h
      | cons y ys => simp [goLess]
  | cons x xs ih =>
      cases b with
      | nil => simp [goLess] at h
      | cons y ys =>
          by_cases hxy : x < y
          · simp [goLess, hxy, show ¬ y < x from by omega]
          · by_cases hyx : y < x
            · simp [goLess, hxy, hyx] at h
            · have hxyeq : x = y := by omega
              subst hxyeq
              simp only [goLess, if_neg hxy, if_neg hyx] at h ⊢
              exact ih h

theorem goLess_trans {a b c : GoStr} (hab : goLess a b = true)
    (hbc : goLess b c = true) : goLess a c = true := by
  induction a generalizing b c with
  | nil =>
      cases c with
      | nil =>
          cases b with
          | nil => simpa [goLess] using hab
          | cons y ys => simp [goLess] at hbc
      | cons z zs => simp [goLess]
  | cons x xs ih =>
      cases b with
      | nil => simp [goLess] at hab
      | cons y ys =>
          cases c with
          | nil => simp [goLess] at hbc
          | cons z zs =>
              by_cases hxy : x < y <;> by_cases hyz : y < z
              · simp [goLess, show x < z from by omega]
              · by_cases hzy : z < y
                · simp [goLess, hxy, hyz, hzy] at hbc
                · have : y = z := by omega
                  subst this
                  simp [goLess, hxy]
              · by_cases hyx : y < x
                · simp [goLess, hxy, hyx] at hab
                · have : x = y := by omega
                  subst this
                  simp [goLess, hyz]
              · by_cases hyx : y < x
                · simp [goLess, hxy, hyx] at hab
                · have hxy' : x = y := by omega
                  subst hxy'
                  by_cases hzx : z < x
                  · simp [goLess, hyz, hzx] at hbc
                  · have : x = z := by omega
                    subst this
                    simp only [goLess, if_neg hyz, if_neg hzx] at hab hbc ⊢
                    exact ih hab hbc

theorem goLess_conn {a b : GoStr} (h : a ≠ b) :
    goLess a b = true ∨ goLess b a = true := by
  induction a generalizing b with
  | nil =>
      cases b with
      | nil => exact absurd rfl h
      | cons y ys => left; simp [goLess]
  | cons x xs ih =>
      cases b with
      | nil => right; simp [goLess]
      | cons y ys =>
          by_cases hxy : x < y
          · left; simp [goLess, hxy]
          · by_cases hyx : y < x
            · right; simp [goLess, hyx]
            · have : x = y := by omega
              subst this
              have hne : xs ≠ ys := fun hh => h (by rw [hh])
              rcases ih hne with h1 | h1
              · left; simp [goLess, hxy, h1]
              · right; simp [goLess, hxy, h1]

/-- Lexicographic strict comparison over field lists (specification-side
restatement of `compareFindings`). -/
def lexLt : List GoStr → List GoStr → Bool
  | x :: xs, y :: ys => if x ≠ y then goLess x y else lexLt xs ys
  | _, _ => false

/-- The sort-key fields of a finding in comparison order. -/
def findingFields (a : SecretFinding) : List GoStr :=
  [a.serverName, a.kind, a.key, a.valueHash]

theorem compareFindings_eq_lexLt (a b : SecretFinding) :
    compareFindings a b = lexLt (findingFields a) (findingFields b) := by
  unfold compareFindings findingFields
  by_cases h1 : a.serverName = b.serverName <;>
    by_cases h2 : a.kind = b.kind <;>
      by_cases h3 : a.key = b.key <;>
        by_cases h4 : a.valueHash = b.valueHash <;>
          simp [lexLt, h1, h2, h3, h4, goLess_irrefl]

theorem lexLt_asymm : ∀ {xs ys : List GoStr}, lexLt xs ys = true →
    lexLt ys xs = false
  | x :: xs, y :: ys, h => by
      by_cases hxy : x = y
      · subst hxy
        simp only [lexLt] at h ⊢
        rw [if_neg (by simp : ¬ x ≠ x)] at h ⊢
        exact lexLt_asymm h
      · simp only [lexLt, ne_eq, hxy, not_false_eq_true, if_pos] at h
        have := goLess_asymm h
        simp [lexLt, Ne.symm hxy, this]
  | [], ys, h => by simp [lexLt] at h
  | x :: xs, [], h => by simp [lexLt] at h

theorem lexLt_trans : ∀ {xs ys zs : List GoStr}, lexLt xs ys = true →
    lexLt ys zs = true → lexLt xs zs = true
  | x :: xs, y :: ys, z :: zs, hab, hbc => by
      by_cases hxy : x = y
      · subst hxy
        simp only [lexLt, ne_eq, if_neg (by simp : ¬ x ≠ x)] at hab
        by_cases hyz : x = z
        · subst hyz
          simp only [lexLt, ne_eq, if_neg (by simp : ¬ x ≠ x)] at hbc ⊢
          exact lexLt_trans hab hbc
        · simp only [lexLt, ne_eq, hyz, not_false_eq_true, if_pos] at hbc ⊢
          exact hbc
      · simp only [lexLt, ne_eq, hxy, not_false_eq_true, if_pos] at hab
        by_cases hyz : y = z
        · subst hyz
          simp [lexLt, hxy, hab]
        · simp only [lexLt, ne_eq, hyz, not_false_eq_true, if_pos] at hbc
          have hlt := goLess_trans hab hbc
          have hxz : x ≠ z := by
            intro hh
            subst hh
            rw [goLess_irrefl] at hlt
            cases hlt
          simp [lexLt, hxz, hlt]
  | [], ys, zs, hab, _ => by simp [lexLt] at hab
  | x :: xs, [], zs, hab, _ => by simp [lexLt] at hab
  | x :: xs, y :: ys, [], _, hbc => by simp [lexLt] at hbc

theorem lexLt_eq_of_not : ∀ {xs ys : List GoStr}, xs.length = ys.length →
    lexLt xs ys = false → lexLt ys xs = false → xs = ys
  | [], [], _, _, _ => rfl
  | x :: xs, y :: ys, hlen, h1, h2 => by
      by_cases hxy : x = y
      · subst hxy
        simp only [lexLt, ne_eq, if_neg (by simp : ¬ x ≠ x)] at h1 h2
        rw [lexLt_eq_of_not (by simpa using hlen) h1 h2]
      · rcases goLess_conn hxy with hl | hl
        · simp [lexLt, hxy, hl] at h1
        · simp [lexLt, Ne.symm hxy, hl] at h2

theorem occGet_cons (f : GoStr × List Int) (rest : List (GoStr × List Int))
    (file : GoStr) :
    occGet (f :: rest) file = if f.1 = file then f.2 else occGet rest file := by
  by_cases h : f.1 = file <;> simp [occGet, List.find?, h]

theorem occGet_eq_nil_of_not_mem {occ : List (GoStr × List Int)} {file : GoStr}
    (h : ∀ e ∈ occ, e.1 ≠ file) : occGet occ file = [] := by
  induction occ with
  | nil => rfl
  | cons f rest ih =>
      rw [occGet_cons, if_neg (h f (by simp)), ih]
      intro e he
      exact h e (by simp [he])

theorem occGet_map_set_self {occ : List (GoStr × List Int)} {file : GoStr}
    {lines : List Int} (h : occ.any (fun e => decide (e.1 = file)) = true) :
    occGet (occ.map fun e => if e.1 = file then (e.1, lines) else e) file =
      lines := by
  induction occ with
  | nil => simp at h
  | cons f rest ih =>
      by_cases hf : f.1 = file
      · simp [occGet_cons, hf]
      · simp only [List.map_cons, if_neg hf, occGet_cons, if_neg hf]
        apply ih
        simp only [List.any_cons, Bool.or_eq_true, decide_eq_true_eq] at h
        rcases h with h | h
        · exact absurd h hf
        · simpa using h

theorem occGet_map_set_other {occ : List (GoStr × List Int)}
    {file file2 : GoStr} {lines : List Int} (hne : file2 ≠ file) :
    occGet (occ.map fun e => if e.1 = file then (e.1, lines) else e) file2 =
      occGet occ file2 := by
  induction occ with
  | nil => rfl
  | cons f rest ih =>
      by_cases hf : f.1 = file
      · have hf2 : ¬ f.1 = file2 := by rw [hf]; exact fun hh => hne hh.symm
        simp only [List.map_cons, if_pos hf, occGet_cons, if_neg hf2, ih]
      · simp only [List.map_cons, if_neg hf, occGet_cons]
        by_cases hf2 : f.1 = file2
        · rw [if_pos hf2, if_pos hf2]
        · rw [if_neg hf2, if_neg hf2, ih]

theorem occGet_append_single_self {occ : List (GoStr × List Int)}
    {file : GoStr} {lines : List Int} (h : ∀ e ∈ occ, e.1 ≠ file) :
    occGet (occ ++ [(file, lines)]) file = lines := by
  induction occ with
  | nil => simp [occGet_cons]
  | cons f rest ih =>
      rw [List.cons_append, occGet_cons, if_neg (h f (by simp))]
      exact ih fun e he => h e (by simp [he])

theorem occGet_append_single_other {occ : List (GoStr × List Int)}
    {file file2 : GoStr} {lines : List Int} (hne : file2 ≠ file) :
    occGet (occ ++ [(file, lines)]) file2 = occGet occ file2 := by
  induction occ with
  | nil =>
      rw [List.nil_append, occGet_cons, if_neg (fun hh => hne hh.symm)]
  | cons f rest ih =>
      rw [List.cons_append, occGet_cons, occGet_cons]
      by_cases hf2 : f.1 = file2
      · rw [if_pos hf2, if_pos hf2]
      · rw [if_neg hf2, if_neg hf2, ih]

theorem occGet_occSet_self (occ : List (GoStr × List Int)) (file : GoStr)
    (lines : List Int) : occGet (occSet occ file lines) file = lines := by
  unfold occSet
  by_cases hany : occ.any (fun e => decide (e.1 = file)) = true
  · rw [if_pos hany]
    exact occGet_map_set_self hany
  · rw [if_neg hany]
    simp only [List.any_eq_true, decide_eq_true_eq, not_exists, not_and] at hany
    exact occGet_append_single_self fun e he => hany e he

theorem occGet_occSet_other (occ : List (GoStr × List Int)) (file file2 : GoStr)
    (lines : List Int) (hne : file2 ≠ file) :
    occGet (occSet occ file lines) file2 = occGet occ file2 := by
  unfold occSet
  by_cases hany : occ.any (fun e => decide (e.1 = file)) = true
  · rw [if_pos hany]
    exact occGet_map_set_other hne
  · rw [if_neg hany]
    exact occGet_append_single_other hne

theorem occGet_occAppend_self (occ : List (GoStr × List Int)) (file : GoStr)
    (lines : List Int) :
    occGet (occAppend occ file lines) file = occGet occ file ++ lines :=
  occGet_occSet_self occ file _

theorem occGet_occAppend_other (occ : List (GoStr × List Int))
    (file file2 : GoStr) (lines : List Int) (hne : file2 ≠ file) :
    occGet (occAppend occ file lines) file2 = occGet occ file2 :=
  occGet_occSet_other occ file file2 _ hne

/-- Folding `occAppend` over a key-distinct occurrence map appends
lookup-wise. -/
theorem occGet_foldl_occAppend (inc : List (GoStr × List Int))
    (hd : inc.Pairwise fun x y => x.1 ≠ y.1) :
    ∀ (acc : List (GoStr × List Int)) (file : GoStr),
      occGet (inc.foldl (fun occ e => occAppend occ e.1 e.2) acc) file =
        occGet acc file ++ occGet inc file := by
  induction inc with
  | nil => intro acc file; simp [occGet, List.find?]
  | cons f rest ih =>
      intro acc file
      rw [List.pairwise_cons] at hd
      rw [List.foldl_cons, ih hd.2, occGet_cons]
      by_cases hf : f.1 = file
      · rw [if_pos hf]
        have hnil : occGet rest file = [] := by
          apply occGet_eq_nil_of_not_mem
          intro e he hh
          exact (hd.1 e he) (hf.trans hh.symm)
        rw [hnil, hf, occGet_occAppend_self]
        simp
      · rw [if_neg hf, occGet_occAppend_other _ _ _ _ (fun hh => hf hh.symm)]

theorem occSet_keys_distinct {occ : List (GoStr × List Int)} {file : GoStr}
    {lines : List Int} (h : occ.Pairwise fun x y => x.1 ≠ y.1) :
    (occSet occ file lines).Pairwise fun x y => x.1 ≠ y.1 := by
  unfold occSet
  by_cases hany : occ.any (fun e => decide (e.1 = file)) = true
  · rw [if_pos hany, List.pairwise_map]
    have hfst : ∀ e : GoStr × List Int,
        (if e.1 = file then (e.1, lines) else e).1 = e.1 := by
      intro e
      by_cases he : e.1 = file <;> simp [he]
    apply h.imp_of_mem
    intro a b _ _ hab
    rw [hfst a, hfst b]
    exact hab
  · rw [if_neg hany, List.pairwise_append]
    simp only [List.any_eq_true, decide_eq_true_eq, not_exists, not_and] at hany
    refine ⟨h, by simp, ?_⟩
    intro a ha b hb
    simp only [List.mem_singleton] at hb
    subst hb
    exact hany a ha

theorem occAppend_keys_distinct {occ : List (GoStr × List Int)} {file : GoStr}
    {lines : List Int} (h : occ.Pairwise fun x y => x.1 ≠ y.1) :
    (occAppend occ file lines).Pairwise fun x y => x.1 ≠ y.1 :=
  occSet_keys_distinct h

theorem foldl_occAppend_keys_distinct (inc : List (GoStr × List Int))
    {acc : List (GoStr × List Int)} (h : acc.Pairwise fun x y => x.1 ≠ y.1) :
    (inc.foldl (fun occ e => occAppend occ e.1 e.2) acc).Pairwise
      fun x y => x.1 ≠ y.1 := by
  induction inc generalizing acc with
  | nil => exact h
  | cons f rest ih => exact ih (occAppend_keys_distinct h)

theorem mergeFinding_valueHash (e inc : SecretFinding) :
    (mergeFinding e inc).valueHash = e.valueHash := rfl

theorem occGet_mergeFinding (e inc : SecretFinding)
    (hinc : inc.occurrences.Pairwise fun x y => x.1 ≠ y.1) (file : GoStr) :
    occGet (mergeFinding e inc).occurrences file =
      occGet e.occurrences file ++ occGet inc.occurrences file :=
  occGet_foldl_occAppend inc.occurrences hinc e.occurrences file

/-- `findingAdd` either appends a finding with a fresh hash, or merges into
the first entry carrying the same hash. -/
theorem findingAdd_split (s : List SecretFinding) (inc : SecretFinding) :
    (findingAdd s inc = s ++ [inc] ∧ ∀ f ∈ s, f.valueHash ≠ inc.valueHash) ∨
    (∃ s1 e s2, s = s1 ++ e :: s2 ∧ e.valueHash = inc.valueHash ∧
      (∀ f ∈ s1, f.valueHash ≠ inc.valueHash) ∧
      findingAdd s inc = s1 ++ mergeFinding e inc :: s2) := by
  induction s with
  | nil => left; exact ⟨rfl, by simp⟩
  | cons f rest ih =>
      by_cases hf : f.valueHash = inc.valueHash
      · right
        exact ⟨[], f, rest, by simp, hf, by simp, by simp [findingAdd, hf]⟩
      · rcases ih with ⟨heq, hall⟩ | ⟨s1, e, s2, heq, hh, hnone, hadd⟩
        · left
          refine ⟨by simp [findingAdd, hf, heq], ?_⟩
          intro g hg
          rcases List.mem_cons.mp hg with rfl | hg
          · exact hf
          · exact hall g hg
        · right
          refine ⟨f :: s1, e, s2, by simp [heq], hh, ?_, by simp [findingAdd, hf, hadd]⟩
          intro g hg
          rcases List.mem_cons.mp hg with rfl | hg
          · exact hf
          · exact hnone g hg

/-- The concatenated occurrence lines, per hash and per file, of a sequence
of added findings (specification-side helper). -/
def occsAll (adds : List SecretFinding) (h : GoStr) (file : GoStr) : List Int :=
  ((adds.filter fun a => decide (a.valueHash = h)).map
    fun a => occGet a.occurrences file).flatten

theorem occsAll_append_single (adds : List SecretFinding) (inc : SecretFinding)
    (h : GoStr) (file : GoStr) :
    occsAll (adds ++ [inc]) h file =
      occsAll adds h file ++
      (if inc.valueHash = h then occGet inc.occurrences file else []) := by
  unfold occsAll
  rw [List.filter_append, List.map_append, List.flatten_append]
  by_cases hh : inc.valueHash = h
  · simp [hh]
  · simp [hh]

theorem occsAll_eq_nil (adds : List SecretFinding) (h : GoStr) (file : GoStr)
    (hno : ∀ a ∈ adds, a.valueHash ≠ h) : occsAll adds h file = [] := by
  unfold occsAll
  rw [List.filter_eq_nil_iff.mpr (by intro a ha; simpa using hno a ha)]
  rfl

theorem mem_occsAll {adds : List SecretFinding} {h : GoStr} {file : GoStr}
    {n : Int} :
    n ∈ occsAll adds h file ↔
      ∃ a ∈ adds, a.valueHash = h ∧ n ∈ occGet a.occurrences file := by
  unfold occsAll
  rw [List.mem_flatten]
  constructor
  · rintro ⟨l, hl, hn⟩
    rw [List.mem_map] at hl
    obtain ⟨a, ha, rfl⟩ := hl
    rw [List.mem_filter] at ha
    exact ⟨a, ha.1, by simpa using ha.2, hn⟩
  · rintro ⟨a, ha, hh, hn⟩
    exact ⟨occGet a.occurrences file,
      List.mem_map.mpr ⟨a, List.mem_filter.mpr ⟨ha, by simpa using hh⟩, rfl⟩, hn⟩

/-- Invariant of the accumulated finding set after a sequence of `Add`s. -/
def ScanInv (adds s : List SecretFinding) : Prop :=
  (s.Pairwise fun a b => a.valueHash ≠ b.valueHash) ∧
  (∀ e ∈ s, ∀ file, occGet e.occurrences file = occsAll adds e.valueHash file) ∧
  (∀ a ∈ adds, ∃ e ∈ s, e.valueHash = a.valueHash) ∧
  (∀ e ∈ s, e.occurrences.Pairwise fun x y => x.1 ≠ y.1)

theorem scanInv_foldl (adds : List SecretFinding)
    (hwf : ∀ a ∈ adds, a.occurrences.Pairwise fun x y => x.1 ≠ y.1) :
    ScanInv adds (adds.foldl findingAdd []) := by
  induction adds using List.reverseRecOn with
  | nil => exact ⟨by simp, by simp, by simp, by simp⟩
  | append_singleton adds inc ih =>
      have hwf' : ∀ a ∈ adds, a.occurrences.Pairwise fun x y => x.1 ≠ y.1 :=
        fun a ha => hwf a (by simp [ha])
      have hinc : inc.occurrences.Pairwise fun x y => x.1 ≠ y.1 :=
        hwf inc (by simp)
      obtain ⟨hpw, hocc, hcov, hkd⟩ := ih hwf'
      rw [List.foldl_append, List.foldl_cons, List.foldl_nil]
      rcases findingAdd_split (adds.foldl findingAdd []) inc with
        ⟨heq, hall⟩ | ⟨s1, e, s2, hseq, hh, hnone, heq⟩
      · rw [heq]
        refine ⟨?_, ?_, ?_, ?_⟩
        · rw [List.pairwise_append]
          refine ⟨hpw, by simp, ?_⟩
          intro a ha b hb
          simp only [List.mem_singleton] at hb
          subst hb
          exact hall a ha
        · intro f hf file
          rcases List.mem_append.mp hf with hf | hf
          · rw [hocc f hf file, occsAll_append_single,
              if_neg (fun hx => hall f hf hx.symm)]
            simp
          · simp only [List.mem_singleton] at hf
            subst hf
            rw [occsAll_append_single, if_pos rfl]
            rw [occsAll_eq_nil]
            · simp
            · intro a ha hax
              obtain ⟨f2, hf2, hf2h⟩ := hcov a ha
              exact hall f2 hf2 (hf2h.trans hax)
        · intro a ha
          rcases List.mem_append.mp ha with ha | ha
          · obtain ⟨f2, hf2, hf2h⟩ := hcov a ha
            exact ⟨f2, List.mem_append_left _ hf2, hf2h⟩
          · simp only [List.mem_singleton] at ha
            exact ⟨inc, List.mem_append_right _ (by simp), by rw [ha]⟩
        · intro f hf
          rcases List.mem_append.mp hf with hf | hf
          · exact hkd f hf
          · simp only [List.mem_singleton] at hf
            subst hf
            exact hinc
      · rw [heq]
        have hpw' := hseq ▸ hpw
        rw [List.pairwise_append, List.pairwise_cons] at hpw'
        obtain ⟨hpw1, ⟨hes2, hpw2⟩, hcross⟩ := hpw'
        have hemem : e ∈ adds.foldl findingAdd [] := by rw [hseq]; simp
        refine ⟨?_, ?_, ?_, ?_⟩
        · rw [List.pairwise_append, List.pairwise_cons]
          refine ⟨hpw1, ⟨?_, hpw2⟩, ?_⟩
          · intro b hb
            rw [mergeFinding_valueHash]
            exact hes2 b hb
          · intro a ha b hb
            rcases List.mem_cons.mp hb with rfl | hb
            · rw [mergeFinding_valueHash]
              exact hcross a ha e (by simp)
            · exact hcross a ha b (by simp [hb])
        · intro f hf file
          rcases List.mem_append.mp hf with hf | hf
          · have hfs : f ∈ adds.foldl findingAdd [] := by
              rw [hseq]; exact List.mem_append_left _ hf
            rw [hocc f hfs file, occsAll_append_single,
              if_neg (fun hx => hnone f hf hx.symm)]
            simp
          · rcases List.mem_cons.mp hf with rfl | hf
            · rw [mergeFinding_valueHash,
                occGet_mergeFinding e inc hinc file,
                hocc e hemem file, occsAll_append_single,
                if_pos hh.symm]
            · have hfs : f ∈ adds.foldl findingAdd [] := by
                rw [hseq]
                exact List.mem_append_right _ (by simp [hf])
              have hfh : e.valueHash ≠ f.valueHash := hes2 f hf
              rw [hocc f hfs file, occsAll_append_single,
                if_neg (fun hx => hfh (hh.trans hx))]
              simp
        · intro a ha
          rcases List.mem_append.mp ha with ha | ha
          · obtain ⟨f2, hf2, hf2h⟩ := hcov a ha
            rw [hseq] at hf2
            rcases List.mem_append.mp hf2 with hf2 | hf2
            · exact ⟨f2, List.mem_append_left _ hf2, hf2h⟩
            · rcases List.mem_cons.mp hf2 with rfl | hf2
              · exact ⟨mergeFinding f2 inc,
                  List.mem_append_right _ (by simp),
                  by rw [mergeFinding_valueHash]; exact hf2h⟩
              · exact ⟨f2, List.mem_append_right _ (by simp [hf2]), hf2h⟩
          · simp only [List.mem_singleton] at ha
            exact ⟨mergeFinding e inc, List.mem_append_right _ (by simp),
              by rw [mergeFinding_valueHash, ha]; exact hh⟩
        · intro f hf
          rcases List.mem_append.mp hf with hf | hf
          · exact hkd f (by rw [hseq]; exact List.mem_append_left _ hf)
          · rcases List.mem_cons.mp hf with rfl | hf
            · exact foldl_occAppend_keys_distinct _ (hkd e hemem)
            · exact hkd f (by rw [hseq]; exact List.mem_append_right _ (by simp [hf]))

theorem dedupAcc_mem (l : List Int) :
    ∀ (acc : List Int) (x : Int),
      x ∈ l.foldl (fun acc x => if x ∈ acc then acc else acc ++ [x]) acc ↔
        x ∈ acc ∨ x ∈ l := by
  induction l with
  | nil => intro acc x; simp
  | cons y l ih =>
      intro acc x
      rw [List.foldl_cons, ih]
      by_cases hy : y ∈ acc
      · rw [if_pos hy]
        simp only [List.mem_cons]
        constructor
        · rintro (h | h)
          · exact Or.inl h
          · exact Or.inr (Or.inr h)
        · rintro (h | h | h)
          · exact Or.inl h
          · exact Or.inl (h ▸ hy)
          · exact Or.inr h
      · rw [if_neg hy]
        simp only [List.mem_append, List.mem_singleton, List.mem_cons]
        tauto

theorem dedupAcc_nodup (l : List Int) :
    ∀ (acc : List Int), acc.Nodup →
      (l.foldl (fun acc x => if x ∈ acc then acc else acc ++ [x]) acc).Nodup := by
  induction l with
  | nil => intro acc h; exact h
  | cons y l ih =>
      intro acc h
      rw [List.foldl_cons]
      by_cases hy : y ∈ acc
      · rw [if_pos hy]; exact ih acc h
      · rw [if_neg hy]
        apply ih
        rw [List.nodup_append]
        refine ⟨h, by simp, ?_⟩
        intro a ha hb
        simp only [List.mem_singleton] at hb
        subst hb
        exact hy ha

theorem dedupeAndSortLines_sorted (l : List Int) :
    (dedupeAndSortLines l).Sorted (· ≤ ·) := by
  unfold dedupeAndSortLines
  by_cases h : l.length ≤ 1
  · rw [if_pos h]
    match l with
    | [] => exact List.sorted_nil
    | [x] => exact List.sorted_singleton x
    | x :: y :: tl => simp at h
  · rw [if_neg h]
    have hs := @List.sorted_mergeSort Int (fun a b : Int => decide (a ≤ b))
      (by intro a b c hab hbc; simp only [decide_eq_true_eq] at *; omega)
      (by intro a b; simpa using Int.le_total a b)
      (l.foldl (fun acc x => if x ∈ acc then acc else acc ++ [x]) [])
    exact hs.imp (by simp)

theorem dedupeAndSortLines_nodup (l : List Int) :
    (dedupeAndSortLines l).Nodup := by
  unfold dedupeAndSortLines
  by_cases h : l.length ≤ 1
  · rw [if_pos h]
    match l with
    | [] => exact List.nodup_nil
    | [x] => simp
    | x :: y :: tl => simp at h
  · rw [if_neg h]
    exact (List.mergeSort_perm _ _).nodup_iff.mpr (dedupAcc_nodup l [] (by simp))

theorem dedupeAndSortLines_mem (l : List Int) (n : Int) :
    n ∈ dedupeAndSortLines l ↔ n ∈ l := by
  unfold dedupeAndSortLines
  by_cases h : l.length ≤ 1
  · rw [if_pos h]
  · rw [if_neg h]
    rw [(List.mergeSort_perm _ _).mem_iff, dedupAcc_mem]
    simp

theorem occGet_map_dedupe (occ : List (GoStr × List Int)) (file : GoStr) :
    occGet (occ.map fun e => (e.1, dedupeAndSortLines e.2)) file =
      dedupeAndSortLines (occGet occ file) := by
  induction occ with
  | nil => simp [occGet, List.find?, dedupeAndSortLines]
  | cons f rest ih =>
      rw [List.map_cons, occGet_cons, occGet_cons]
      by_cases hf : f.1 = file
      · rw [if_pos hf, if_pos hf]
      · rw [if_neg hf, if_neg hf, ih]

/-- **C5.** Over any sequence of `Add` operations (whose occurrence maps
have distinct file keys, as Go maps do): findings with equal `value_hash`
collapse into a single entry; its per-file occurrence list as returned by
`ListSorted` is ascending, duplicate-free, and contains exactly the union of
the line numbers of all merged findings for that file; every added hash is
represented; and the output is ordered by
(server_name, kind, key, value_hash). -/
theorem C5_finding_merge (adds : List SecretFinding)
    (hwf : ∀ a ∈ adds, a.occurrences.Pairwise fun x y => x.1 ≠ y.1) :
    ((ListSorted (adds.foldl findingAdd [])).Pairwise
        fun a b => a.valueHash ≠ b.valueHash) ∧
    (∀ e ∈ ListSorted (adds.foldl findingAdd []), ∀ file : GoStr,
      (occGet e.occurrences file).Sorted (· ≤ ·) ∧
      (occGet e.occurrences file).Nodup ∧
      ∀ n : Int, n ∈ occGet e.occurrences file ↔
        ∃ a ∈ adds, a.valueHash = e.valueHash ∧
          n ∈ occGet a.occurrences file) ∧
    (∀ a ∈ adds, ∃ e ∈ ListSorted (adds.foldl findingAdd []),
      e.valueHash = a.valueHash) ∧
    ((ListSorted (adds.foldl findingAdd [])).Pairwise
        fun a b => lexLt (findingFields a) (findingFields b) = true ∨
          findingFields a = findingFields b) := by
  obtain ⟨hpw, hocc, hcov, hkd⟩ := scanInv_foldl adds hwf
  have hperm : List.Perm
      (ListSorted (adds.foldl findingAdd []))
      ((adds.foldl findingAdd []).map fun f =>
        { f with occurrences := f.occurrences.map fun e =>
            (e.1, dedupeAndSortLines e.2) }) :=
    List.mergeSort_perm _ _
  refine ⟨?_, ?_, ?_, ?_⟩
  · rw [hperm.pairwise_iff fun h => h.symm]
    rw [List.pairwise_map]
    exact hpw
  · intro e he file
    have hem := hperm.mem_iff.mp he
    rw [List.mem_map] at hem
    obtain ⟨f, hf, rfl⟩ := hem
    rw [occGet_map_dedupe]
    refine ⟨dedupeAndSortLines_sorted _, dedupeAndSortLines_nodup _, ?_⟩
    intro n
    rw [dedupeAndSortLines_mem, hocc f hf file]
    exact mem_occsAll
  · intro a ha
    obtain ⟨f, hf, hfh⟩ := hcov a ha
    refine ⟨{ f with occurrences := f.occurrences.map fun e =>
        (e.1, dedupeAndSortLines e.2) }, ?_, hfh⟩
    rw [hperm.mem_iff]
    exact List.mem_map.mpr ⟨f, hf, rfl⟩
  · have hs := @List.sorted_mergeSort SecretFinding
      (fun a b : SecretFinding => !(compareFindings b a))
      (by
        intro a b c hab hbc
        simp only [Bool.not_eq_true', compareFindings_eq_lexLt] at hab hbc ⊢
        by_cases hca : lexLt (findingFields c) (findingFields a) = true
        · exfalso
          by_cases hbc3 : lexLt (findingFields b) (findingFields c) = true
          · exact absurd (lexLt_trans hbc3 hca) (by simp [hab])
          · have heq := lexLt_eq_of_not (by simp [findingFields])
              (by simpa using hbc3) hbc
            rw [← heq] at hca
            exact absurd hca (by simp [hab])
        · simpa using hca)
      (by
        intro a b
        by_cases h : compareFindings b a = true
        · have := lexLt_asymm (compareFindings_eq_lexLt b a ▸ h)
          simp only [Bool.or_eq_true, Bool.not_eq_true']
          right
          rw [compareFindings_eq_lexLt]
          exact this
        · simp only [Bool.or_eq_true, Bool.not_eq_true']
          left
          simpa using h)
      ((adds.foldl findingAdd []).map fun f =>
        { f with occurrences := f.occurrences.map fun e =>
            (e.1, dedupeAndSortLines e.2) })
    apply hs.imp
    intro a b hab
    simp only [Bool.not_eq_true', compareFindings_eq_lexLt] at hab
    by_cases h2 : lexLt (findingFields a) (findingFields b) = true
    · exact Or.inl h2
    · exact Or.inr (lexLt_eq_of_not (by simp [findingFields])
        (by simpa using h2) hab)

/-- Concrete findings mirroring the `FindingSet` unit test: two share a
value hash with different lines, a third has its own hash. -/
def finA1 : SecretFinding :=
  { kind := gs "OpenAI API Key", key := gs "env.K", value := gs "sk-p***"
    occurrences := [(gs "/tmp/a.json", [10])], valueHash := gs "h1"
    serverName := gs "serverA", confidence := gs "HIGH" }

def finA2 : SecretFinding :=
  { finA1 with occurrences := [(gs "/tmp/a.json", [12])] }

def finB : SecretFinding :=
  { kind := gs "OpenAI API Key", key := gs "env.K", value := gs "sk-q***"
    occurrences := [(gs "/tmp/b.json", [5])], valueHash := gs "h2"
    serverName := gs "serverB", confidence := gs "HIGH" }

/-- Witness for C5 at the three concrete findings. -/
theorem C5_finding_merge_witness :
    (∀ a ∈ [finA1, finA2, finB],
      a.occurrences.Pairwise fun x y => x.1 ≠ y.1) ∧
    (((ListSorted ([finA1, finA2, finB].foldl findingAdd [])).Pairwise
        fun a b => a.valueHash ≠ b.valueHash) ∧
    (∀ e ∈ ListSorted ([finA1, finA2, finB].foldl findingAdd []),
      ∀ file : GoStr,
      (occGet e.occurrences file).Sorted (· ≤ ·) ∧
      (occGet e.occurrences file).Nodup ∧
      ∀ n : Int, n ∈ occGet e.occurrences file ↔
        ∃ a ∈ [finA1, finA2, finB], a.valueHash = e.valueHash ∧
          n ∈ occGet a.occurrences file) ∧
    (∀ a ∈ [finA1, finA2, finB],
      ∃ e ∈ ListSorted ([finA1, finA2, finB].foldl findingAdd []),
        e.valueHash = a.valueHash) ∧
    ((ListSorted ([finA1, finA2, finB].foldl findingAdd [])).Pairwise
        fun a b => lexLt (findingFields a) (findingFields b) = true ∨
          findingFields a = findingFields b)) :=
  ⟨by decide, C5_finding_merge [finA1, finA2, finB] (by decide)⟩

/-! ### JSON decoding and the case-insensitive key-collision check (`part_015`) -/

/-- Go map assignment for decoded objects: replace the first entry with the
key, else append. -/
def setAssoc (acc : List (GoStr × GoValue)) (k : GoStr) (v : GoValue) :
    List (GoStr × GoValue) :=
  if acc.any (fun e => decide (e.1 = k)) then
    acc.map fun e => if e.1 = k then (k, v) else e
  else acc ++ [(k, v)]

mutual
/-- Models `encoding/json` generic decoding of a raw JSON tree (objects may
carry textually duplicate keys) into Go maps: duplicate keys collapse, the
last value wins. -/
def goDecode : GoValue → GoValue
  | .vObj fields => .vObj (goDecodeFields [] fields)
  | .vArr items => .vArr (goDecodeItems items)
  | v => v

def goDecodeFields (acc : List (GoStr × GoValue)) :
    List (GoStr × GoValue) → List (GoStr × GoValue)
  | [] => acc
  | (k, v) :: rest => goDecodeFields (setAssoc acc k (goDecode v)) rest

def goDecodeItems : List GoValue → List GoValue
  | [] => []
  | v :: rest => goDecode v :: goDecodeItems rest
end

/-- The diagnostic of `checkCaseInsensitiveKeysRecursive`: the displayed key
path and the two colliding key spellings. -/
structure CollisionErr where
  keyPath : GoStr
  key : GoStr
  first : GoStr

/-- First-match lookup in the `lowerToOriginal` map. -/
def lookupAssoc (m : List (GoStr × GoStr)) (k : GoStr) : Option GoStr :=
  (m.find? fun e => decide (e.1 = k)).map (·.2)

mutual
/-- Embeds `checkCaseInsensitiveKeysRecursive` of `part_015` (one fixed
iteration order of the Go map; `strings.ToLower` and `strings.EqualFold`
modelled on ASCII). -/
def checkKeys : GoValue → GoStr → Option CollisionErr
  | .vObj fields, path => checkFields fields path []
  | .vArr items, path => checkItems items path 0
  | _, _ => none

def checkFields : List (GoStr × GoValue) → GoStr → List (GoStr × GoStr) →
    Option CollisionErr
  | [], _, _ => none
  | (key, value) :: rest, path, seen =>
      match lookupAssoc seen (goToLower key) with
      | some first =>
          let pathKey :=
            if goToLower first = goToLower key then
              (if key ≠ goToLower key then key else first)
            else first
          let keyPath := (if path = [] then [] else path ++ gs ".") ++ pathKey
          some ⟨keyPath, key, first⟩
      | none =>
          let nestedPath := (if path = [] then [] else path ++ gs ".") ++ key
          match checkKeys value nestedPath with
          | some err => some err
          | none => checkFields rest path (seen ++ [(goToLower key, key)])

def checkItems : List GoValue → GoStr → Nat → Option CollisionErr
  | [], _, _ => none
  | item :: rest, path, i =>
      match checkKeys item (path ++ gs "[" ++ gs (toString i) ++ gs "]") with
      | some err => some err
      | none => checkItems rest path (i + 1)
end

/-- Embeds `detectCaseInsensitiveKeyCollisions` of `part_015` composed with
JSON decoding, and the JSON arm of `unmarshal`: the collision check runs on
the generically decoded tree; on a collision the decode fails. -/
def unmarshalJSON (raw : GoValue) : Except CollisionErr GoValue :=
  match checkKeys (goDecode raw) [] with
  | some err => .error err
  | none => .ok (goDecode raw)

/-- A decoded tree contains, at some depth (arrays included), an object with
two sibling keys of equal ASCII lower-case form. -/
inductive HasCollision : GoValue → Prop where
  | objDup {fields} :
      ¬ (fields.Pairwise fun a b => goToLower a.1 ≠ goToLower b.1) →
      HasCollision (.vObj fields)
  | objNested {fields} {k : GoStr} {v : GoValue} : (k, v) ∈ fields →
      HasCollision v → HasCollision (.vObj fields)
  | arrNested {items} {v : GoValue} : v ∈ items → HasCollision v →
      HasCollision (.vArr items)

theorem hasCollision_obj_iff (fields : List (GoStr × GoValue)) :
    HasCollision (.vObj fields) ↔
      ¬ (fields.Pairwise fun a b => goToLower a.1 ≠ goToLower b.1) ∨
      ∃ e ∈ fields, HasCollision e.2 := by
  constructor
  · intro h
    cases h with
    | objDup h => exact Or.inl h
    | objNested hmem h => exact Or.inr ⟨_, hmem, h⟩
  · rintro (h | ⟨⟨k, v⟩, hmem, h⟩)
    · exact .objDup h
    · exact .objNested hmem h

theorem hasCollision_arr_iff (items : List GoValue) :
    HasCollision (.vArr items) ↔ ∃ v ∈ items, HasCollision v := by
  constructor
  · intro h
    cases h with
    | arrNested hmem h => exact ⟨_, hmem, h⟩
  · rintro ⟨v, hmem, h⟩
    exact .arrNested hmem h

theorem lookupAssoc_append_single (seen : List (GoStr × GoStr))
    (lk k x : GoStr) :
    lookupAssoc (seen ++ [(lk, k)]) x = none ↔
      lookupAssoc seen x = none ∧ x ≠ lk := by
  unfold lookupAssoc
  rw [List.find?_append]
  rcases hf : seen.find? fun e => decide (e.1 = x) with _ | e
  · rw [hf]
    simp only [Option.none_or]
    by_cases hx : x = lk
    · subst hx
      simp [List.find?]
    · simp [List.find?, show ¬ (lk = x) from fun h => hx h.symm, hx]
  · rw [hf]
    simp

mutual
theorem checkKeys_none_iff (t : GoValue) (path : GoStr) :
    checkKeys t path = none ↔ ¬ HasCollision t := by
  match t with
  | .vObj fields =>
      rw [checkKeys, checkFields_none_iff fields path [], hasCollision_obj_iff]
      constructor
      · rintro ⟨h1, _, h3⟩
        rintro (hc | ⟨e, he, hc⟩)
        · exact hc h1
        · exact h3 e he hc
      · intro h
        refine ⟨?_, fun e _ => rfl, ?_⟩
        · by_contra hc
          exact h (Or.inl hc)
        · intro e he hc
          exact h (Or.inr ⟨e, he, hc⟩)
  | .vArr items =>
      rw [checkKeys, checkItems_none_iff items path 0, hasCollision_arr_iff]
      constructor
      · rintro h ⟨v, hv, hc⟩
        exact h v hv hc
      · intro h v hv hc
        exact h ⟨v, hv, hc⟩
  | .vNull => simp [checkKeys]; intro h; cases h
  | .vBool b => simp [checkKeys]; intro h; cases h
  | .vNum n => simp [checkKeys]; intro h; cases h
  | .vStr s => simp [checkKeys]; intro h; cases h

theorem checkFields_none_iff (fields : List (GoStr × GoValue)) (path : GoStr)
    (seen : List (GoStr × GoStr)) :
    checkFields fields path seen = none ↔
      (fields.Pairwise fun a b => goToLower a.1 ≠ goToLower b.1) ∧
      (∀ e ∈ fields, lookupAssoc seen (goToLower e.1) = none) ∧
      (∀ e ∈ fields, ¬ HasCollision e.2) := by
  match fields with
  | [] => simp [checkFields]
  | (key, value) :: rest =>
      rw [checkFields]
      rcases hl : lookupAssoc seen (goToLower key) with _ | first
      · simp only
        rcases hk : checkKeys value
            ((if path = [] then [] else path ++ gs ".") ++ key) with _ | err
        · simp only
          rw [checkFields_none_iff rest path (seen ++ [(goToLower key, key)])]
          have hval : ¬ HasCollision value :=
            (checkKeys_none_iff value _).mp hk
          constructor
          · rintro ⟨h1, h2, h3⟩
            refine ⟨List.pairwise_cons.mpr ⟨?_, h1⟩, ?_, ?_⟩
            · intro b hb
              have := h2 b hb
              rw [lookupAssoc_append_single] at this
              exact fun hh => this.2 hh.symm
            · intro e he
              rcases List.mem_cons.mp he with rfl | he
              · exact hl
              · exact ((lookupAssoc_append_single _ _ _ _).mp (h2 e he)).1
            · intro e he
              rcases List.mem_cons.mp he with rfl | he
              · exact hval
              · exact h3 e he
          · rintro ⟨h1, h2, h3⟩
            rw [List.pairwise_cons] at h1
            refine ⟨h1.2, ?_, ?_⟩
            · intro e he
              rw [lookupAssoc_append_single]
              exact ⟨h2 e (by simp [he]), fun hh => h1.1 e he hh.symm⟩
            · intro e he
              exact h3 e (by simp [he])
        · simp only
          constructor
          · intro h
            cases h
          · rintro ⟨_, _, h3⟩
            have := h3 (key, value) (by simp)
            exact absurd ((checkKeys_none_iff value
              ((if path = [] then [] else path ++ gs ".") ++ key)).mpr this)
              (by rw [hk]; simp)
      · simp only
        constructor
        · intro h
          cases h
        · rintro ⟨_, h2, _⟩
          have := h2 (key, value) (by simp)
          simp only at this
          rw [this] at hl
          cases hl

theorem checkItems_none_iff (items : List GoValue) (path : GoStr) (i : Nat) :
    checkItems items path i = none ↔ ∀ v ∈ items, ¬ HasCollision v := by
  match items with
  | [] => simp [checkItems]
  | item :: rest =>
      rw [checkItems]
      rcases hk : checkKeys item (path ++ gs "[" ++ gs (toString i) ++ gs "]")
        with _ | err
      · simp only
        rw [checkItems_none_iff rest path (i + 1)]
        constructor
        · intro h v hv
          rcases List.mem_cons.mp hv with rfl | hv
          · exact (checkKeys_none_iff v _).mp hk
          · exact h v hv
        · intro h v hv
          exact h v (by simp [hv])
      · simp only
        constructor
        · intro h
          cases h
        · intro h
          have := h item (by simp)
          exact absurd ((checkKeys_none_iff item
              (path ++ gs "[" ++ gs (toString i) ++ gs "]")).mpr this)
            (by rw [hk]; simp)
end

/-- Rendering of a key path: object keys joined with `.`, array indices as
`[i]` (specification-side helper for the diagnostic path form). -/
def renderSegs (segs : List (GoStr ⊕ Nat)) : GoStr :=
  segs.foldl
    (fun acc s =>
      match s with
      | .inl k => (if acc = [] then [] else acc ++ gs ".") ++ k
      | .inr i => acc ++ gs "[" ++ gs (toString i) ++ gs "]") []

theorem renderSegs_append_inl (segs : List (GoStr ⊕ Nat)) (k : GoStr) :
    renderSegs (segs ++ [.inl k]) =
      (if renderSegs segs = [] then [] else renderSegs segs ++ gs ".") ++ k := by
  unfold renderSegs
  rw [List.foldl_append, List.foldl_cons, List.foldl_nil]

theorem renderSegs_append_inr (segs : List (GoStr ⊕ Nat)) (i : Nat) :
    renderSegs (segs ++ [.inr i]) =
      renderSegs segs ++ gs "[" ++ gs (toString i) ++ gs "]" := by
  unfold renderSegs
  rw [List.foldl_append, List.foldl_cons, List.foldl_nil]

mutual
/-- Any diagnostic produced by the collision check carries a key path of the
form `a.b.c` with `[i]` for array indices. -/
theorem checkKeys_path_shape (t : GoValue) (segs : List (GoStr ⊕ Nat))
    (err : CollisionErr) (h : checkKeys t (renderSegs segs) = some err) :
    ∃ segs2, err.keyPath = renderSegs segs2 := by
  match t with
  | .vObj fields =>
      rw [checkKeys] at h
      exact checkFields_path_shape fields segs [] err h
  | .vArr items =>
      rw [checkKeys] at h
      exact checkItems_path_shape items segs 0 err h
  | .vNull => simp [checkKeys] at h
  | .vBool b => simp [checkKeys] at h
  | .vNum n => simp [checkKeys] at h
  | .vStr s => simp [checkKeys] at h

theorem checkFields_path_shape (fields : List (GoStr × GoValue))
    (segs : List (GoStr ⊕ Nat)) (seen : List (GoStr × GoStr))
    (err : CollisionErr)
    (h : checkFields fields (renderSegs segs) seen = some err) :
    ∃ segs2, err.keyPath = renderSegs segs2 := by
  match fields with
  | [] => simp [checkFields] at h
  | (key, value) :: rest =>
      rw [checkFields] at h
      rcases hl : lookupAssoc seen (goToLower key) with _ | first
      · rw [hl] at h
        simp only at h
        rcases hk : checkKeys value
            ((if renderSegs segs = [] then [] else renderSegs segs ++ gs ".") ++ key)
            with _ | err2
        · rw [hk] at h
          simp only at h
          exact checkFields_path_shape rest segs (seen ++ [(goToLower key, key)]) err h
        · rw [hk] at h
          simp only [Option.some.injEq] at h
          subst h
          have hk2 : checkKeys value (renderSegs (segs ++ [.inl key])) = some err2 := by
            rw [renderSegs_append_inl]
            exact hk
          exact checkKeys_path_shape value (segs ++ [.inl key]) err2 hk2
      · rw [hl] at h
        simp only [Option.some.injEq] at h
        subst h
        exact ⟨segs ++ [.inl (if goToLower first = goToLower key then
            (if key ≠ goToLower key then key else first) else first)],
          (renderSegs_append_inl segs _).symm⟩

theorem checkItems_path_shape (items : List GoValue)
    (segs : List (GoStr ⊕ Nat)) (i : Nat) (err : CollisionErr)
    (h : checkItems items (renderSegs segs) i = some err) :
    ∃ segs2, err.keyPath = renderSegs segs2 := by
  match items with
  | [] => simp [checkItems] at h
  | item :: rest =>
      rw [checkItems] at h
      rcases hk : checkKeys item
          (renderSegs segs ++ gs "[" ++ gs (toString i) ++ gs "]") with _ | err2
      · rw [hk] at h
        simp only at h
        exact checkItems_path_shape rest segs (i + 1) err h
      · rw [hk] at h
        simp only [Option.some.injEq] at h
        subst h
        have hk2 : checkKeys item (renderSegs (segs ++ [.inr i])) = some err2 := by
          rw [renderSegs_append_inr]
          exact hk
        exact checkKeys_path_shape item (segs ++ [.inr i]) err2 hk2
end

/-! ### Config classification and the parse pipeline (`secrets_redactor.go`
detectors, `part_013` `ParseMCPConfigFile`, `models.go`) -/

/-- Embeds `ConfigKind` of `models.go`. -/
inductive ConfigKind where
  | KindUnknown : ConfigKind
  | KindClaude : ConfigKind
  | KindVSCodeConfig : ConfigKind
  | KindVSCodeMCP : ConfigKind
  | KindContinue : ConfigKind
  | KindGoose : ConfigKind
  | KindLibreChat : ConfigKind
deriving Repr, DecidableEq

open ConfigKind

/-- Embeds `hasKey` of `secrets_redactor.go`. -/
def hasKeyG (m : List (GoStr × GoValue)) (k : GoStr) : Bool :=
  m.any fun e => decide (e.1 = k)

/-- Go map read on a decoded object. -/
def getKeyG (m : List (GoStr × GoValue)) (k : GoStr) : Option GoValue :=
  (m.find? fun e => decide (e.1 = k)).map (·.2)

/-- Embeds `hasNested` of `secrets_redactor.go` for a two-segment path: the
value under the first key must be a map that carries the second key (the
final value may have any type). -/
def hasNestedG (m : List (GoStr × GoValue)) (k1 k2 : GoStr) : Bool :=
  match getKeyG m k1 with
  | some (.vObj m2) => hasKeyG m2 k2
  | _ => false

/-- Embeds the `configDetectors` registry of `secrets_redactor.go`, in its
fixed order. -/
def configDetectors : List (ConfigKind × (List (GoStr × GoValue) → Bool)) :=
  [(KindClaude, fun m => hasKeyG m (gs "mcpServers")),
   (KindVSCodeMCP, fun m => hasKeyG m (gs "servers")),
   (KindVSCodeConfig, fun m => hasNestedG m (gs "mcp") (gs "servers")),
   (KindContinue, fun m => hasKeyG m (gs "mcp")),
   (KindGoose, fun m => hasKeyG m (gs "mcp_servers")),
   (KindLibreChat, fun m => hasNestedG m (gs "mcp") (gs "servers"))]

/-- Embeds the detector loop of `ParseMCPConfigFile` (`part_013`): the first
detector in order whose predicate matches the generic document. -/
def classifyConfig (m : List (GoStr × GoValue)) : Option ConfigKind :=
  (configDetectors.find? fun d => d.2 m).map (·.1)

/-- A decoded JSON value that `encoding/json` accepts for a
`map[string]Server` entry (`Server = map[string]interface{}`): an object, or
null (nil map). -/
def isServerValue : GoValue → Bool
  | .vObj _ => true
  | .vNull => true
  | _ => false

/-- Typed decoding of a `map[string]Server` field: absent or null gives the
nil map; an object needs every server value to decode as a map. -/
def asServersMap : Option GoValue → Option (List (GoStr × GoValue))
  | none => some []
  | some .vNull => some []
  | some (.vObj fields) =>
      if fields.all (fun e => isServerValue e.2) then some fields else none
  | some _ => none

/-- Models the typed `unmarshal` into the chosen config struct of
`models.go`, returning its servers map (`GetServers` before filtering). -/
def decodeTyped (kind : ConfigKind) (m : List (GoStr × GoValue)) :
    Option (List (GoStr × GoValue)) :=
  match kind with
  | KindClaude => asServersMap (getKeyG m (gs "mcpServers"))
  | KindVSCodeMCP => asServersMap (getKeyG m (gs "servers"))
  | KindVSCodeConfig =>
      match getKeyG m (gs "mcp") with
      | none => some []
      | some .vNull => some []
      | some (.vObj m2) => asServersMap (getKeyG m2 (gs "servers"))
      | some _ => none
  | KindContinue => asServersMap (getKeyG m (gs "mcp"))
  | KindGoose => asServersMap (getKeyG m (gs "mcp_servers"))
  | KindLibreChat =>
      match getKeyG m (gs "mcp") with
      | none => some []
      | some .vNull => some []
      | some (.vObj m2) => asServersMap (getKeyG m2 (gs "servers"))
      | some _ => none
  | KindUnknown => none

/-- Embeds `filterConfig` of `part_015`: drop every server whose own
(marshalled) sub-document has a case-insensitive key collision. -/
def filterConfigG (servers : List (GoStr × GoValue)) : List (GoStr × GoValue) :=
  servers.filter fun e => (checkKeys e.2 []).isNone

/-- Embeds `ParseMCPConfigFile` of `part_013` on an already-read JSON
document: generic decode with collision check, detector choice, typed
decode, server filtering; every failure (and an empty servers map) yields no
configuration. -/
def ParseMCPConfigTree (raw : GoValue) : Option (ConfigKind × List (GoStr × GoValue)) :=
  match unmarshalJSON raw with
  | .error _ => none
  | .ok decoded =>
      match decoded with
      | .vObj m =>
          match classifyConfig m with
          | none => none
          | some kind =>
              match decodeTyped kind m with
              | none => none
              | some servers =>
                  match filterConfigG servers with
                  | [] => none
                  | f :: fs => some (kind, f :: fs)
      | _ => none

/-- The servers `scanFile` (`part_008`) appends for one parsed file. -/
def scanFileServers (raw : GoValue) : List (GoStr × GoValue) :=
  match ParseMCPConfigTree raw with
  | none => []
  | some r => r.2

/-- The per-server scan loop of `findAndRedactSecrets` (`part_013`). -/
noncomputable def scanServersCtx (c : SecretScanCtx) :
    List (GoStr × GoValue) → SecretScanCtx
  | [] => c
  | (name, srv) :: rest => scanServersCtx (TraverseServer c name srv).2 rest

/-- The findings `scanFile` attributes to one file: none unless the file
parses to a configuration with servers. -/
noncomputable def scanFileFindings (hashHex : GoStr → GoStr)
    (filePath fileContent : GoStr) (raw : GoValue) : List SecretFinding :=
  match ParseMCPConfigTree raw with
  | none => []
  | some r =>
      ListSorted (scanServersCtx
        (newSecretScanContext hashHex filePath fileContent) r.2).findings

/-- **C2 (amended).** For every JSON document whose decoded generic tree
(duplicate keys collapsed, last value winning) contains two distinct sibling
keys with identical lower-case forms — at any depth, arrays included —
decoding fails with a collision diagnostic whose path has the `a.b.c` /
`[i]` form, and the file yields no configuration, no server and no finding. -/
theorem C2_collision_rejects (raw : GoValue)
    (hcol : HasCollision (goDecode raw)) :
    (∃ err, unmarshalJSON raw = .error err ∧
      ∃ segs, err.keyPath = renderSegs segs) ∧
    ParseMCPConfigTree raw = none ∧
    scanFileServers raw = [] ∧
    ∀ (hashHex : GoStr → GoStr) (filePath fileContent : GoStr),
      scanFileFindings hashHex filePath fileContent raw = [] := by
  have hne : checkKeys (goDecode raw) [] ≠ none := by
    intro h
    exact absurd hcol ((checkKeys_none_iff (goDecode raw) []).mp h)
  rcases hk : checkKeys (goDecode raw) [] with _ | err
  · exact absurd hk hne
  have herr : unmarshalJSON raw = .error err := by
    unfold unmarshalJSON
    rw [hk]
  have hparse : ParseMCPConfigTree raw = none := by
    unfold ParseMCPConfigTree
    rw [herr]
  refine ⟨⟨err, herr, ?_⟩, hparse, ?_, ?_⟩
  · exact checkKeys_path_shape (goDecode raw) [] err hk
  · unfold scanFileServers
    rw [hparse]
  · intro hashHex filePath fileContent
    unfold scanFileFindings
    rw [hparse]

/-- Witness for C2 at the document with sibling keys `A` and `a`. -/
theorem C2_collision_rejects_witness :
    (HasCollision (goDecode (GoValue.vObj
      [(gs "A", .vNum 1), (gs "a", .vNum 2)]))) ∧
    ((∃ err, unmarshalJSON (GoValue.vObj
        [(gs "A", .vNum 1), (gs "a", .vNum 2)]) = .error err ∧
      ∃ segs, err.keyPath = renderSegs segs) ∧
    ParseMCPConfigTree (GoValue.vObj [(gs "A", .vNum 1), (gs "a", .vNum 2)]) = none ∧
    scanFileServers (GoValue.vObj [(gs "A", .vNum 1), (gs "a", .vNum 2)]) = [] ∧
    ∀ (hashHex : GoStr → GoStr) (filePath fileContent : GoStr),
      scanFileFindings hashHex filePath fileContent
        (GoValue.vObj [(gs "A", .vNum 1), (gs "a", .vNum 2)]) = []) := by
  have hcol : HasCollision (goDecode (GoValue.vObj
      [(gs "A", .vNum 1), (gs "a", .vNum 2)])) := by
    rw [show goDecode (GoValue.vObj [(gs "A", .vNum 1), (gs "a", .vNum 2)]) =
      GoValue.vObj [(gs "A", .vNum 1), (gs "a", .vNum 2)] from rfl]
    exact HasCollision.objDup (by decide)
  exact ⟨hcol, C2_collision_rejects _ hcol⟩

/-- A Claude-style document whose server `s` textually repeats the key `a`. -/
def rawDup : GoValue :=
  .vObj [(gs "mcpServers",
    .vObj [(gs "s", .vObj [(gs "a", .vNum 1), (gs "a", .vNum 2)])])]

/-- **C2 (counterexample).** `rawDup` contains two sibling keys with
identical lower-case forms (the duplicated key `a`), yet decoding succeeds —
`encoding/json` collapses exact duplicates before the collision check runs —
and a server is emitted from the file, refuting the claim as stated. -/
theorem C2_counterexample :
    HasCollision rawDup ∧
    unmarshalJSON rawDup = .ok (goDecode rawDup) ∧
    scanFileServers rawDup = [(gs "s", .vObj [(gs "a", .vNum 2)])] := by
  refine ⟨?_, rfl, rfl⟩
  unfold rawDup
  apply HasCollision.objNested (k := gs "mcpServers")
    (v := .vObj [(gs "s", .vObj [(gs "a", .vNum 1), (gs "a", .vNum 2)])])
    (by simp)
  apply HasCollision.objNested (k := gs "s")
    (v := .vObj [(gs "a", .vNum 1), (gs "a", .vNum 2)]) (by simp)
  exact HasCollision.objDup (by decide)

/-- **C4 (amended).** `classify` applies the six predicates in the fixed
order Claude, VSCodeMCP, VSCodeConfig, Continue, Goose, LibreChat and
returns the first match.  Since predicates 3 (VSCodeConfig) and 6
(LibreChat) are the same `mcp.servers` test, every document lacking
`mcpServers` and `servers` but carrying a nested `mcp.servers` is classified
VSCodeConfig; LibreChat is unreachable for such documents. -/
theorem C4_classifier_order :
    (∀ m : List (GoStr × GoValue),
      classifyConfig m =
        if hasKeyG m (gs "mcpServers") = true then some KindClaude
        else if hasKeyG m (gs "servers") = true then some KindVSCodeMCP
        else if hasNestedG m (gs "mcp") (gs "servers") = true then
          some KindVSCodeConfig
        else if hasKeyG m (gs "mcp") = true then some KindContinue
        else if hasKeyG m (gs "mcp_servers") = true then some KindGoose
        else if hasNestedG m (gs "mcp") (gs "servers") = true then
          some KindLibreChat
        else none) ∧
    (∀ m : List (GoStr × GoValue),
      hasKeyG m (gs "mcpServers") = false →
      hasKeyG m (gs "servers") = false →
      hasNestedG m (gs "mcp") (gs "servers") = true →
      classifyConfig m = some KindVSCodeConfig ∧
        classifyConfig m ≠ some KindLibreChat) := by
  constructor
  · intro m
    by_cases h1 : hasKeyG m (gs "mcpServers") = true <;>
      by_cases h2 : hasKeyG m (gs "servers") = true <;>
        by_cases h3 : hasNestedG m (gs "mcp") (gs "servers") = true <;>
          by_cases h4 : hasKeyG m (gs "mcp") = true <;>
            by_cases h5 : hasKeyG m (gs "mcp_servers") = true <;>
              simp [classifyConfig, configDetectors, List.find?, h1, h2, h3, h4, h5]
  · intro m hm1 hm2 hm3
    have hc : classifyConfig m = some KindVSCodeConfig := by
      simp [classifyConfig, configDetectors, List.find?, hm1, hm2, hm3]
    exact ⟨hc, by rw [hc]; intro h; cases h⟩

/-- Witness for C4 at the document `{"mcp": {"servers": {}}}`. -/
theorem C4_classifier_order_witness :
    (hasKeyG [(gs "mcp", GoValue.vObj [(gs "servers", .vObj [])])]
        (gs "mcpServers") = false ∧
     hasKeyG [(gs "mcp", GoValue.vObj [(gs "servers", .vObj [])])]
        (gs "servers") = false ∧
     hasNestedG [(gs "mcp", GoValue.vObj [(gs "servers", .vObj [])])]
        (gs "mcp") (gs "servers") = true) ∧
    (classifyConfig [(gs "mcp", GoValue.vObj [(gs "servers", .vObj [])])] =
        some KindVSCodeConfig ∧
     classifyConfig [(gs "mcp", GoValue.vObj [(gs "servers", .vObj [])])] ≠
        some KindLibreChat) :=
  ⟨⟨by decide, by decide, by decide⟩,
   (C4_classifier_order).2 _ (by decide) (by decide) (by decide)⟩

/-- **C4 (counterexample).** The document `{"mcp": {"servers": {}}}` lacks
`mcpServers` and `servers` and has a nested mapping at `mcp.servers`; the
claim says such a document that is not VSCode-shaped is classified
LibreChat, but `classify` returns VSCodeConfig — there is no VSCode-shape
test and detector 3 always fires first. -/
theorem C4_counterexample :
    hasKeyG [(gs "mcp", GoValue.vObj [(gs "servers", .vObj [])])]
      (gs "mcpServers") = false ∧
    hasKeyG [(gs "mcp", GoValue.vObj [(gs "servers", .vObj [])])]
      (gs "servers") = false ∧
    hasNestedG [(gs "mcp", GoValue.vObj [(gs "servers", .vObj [])])]
      (gs "mcp") (gs "servers") = true ∧
    classifyConfig [(gs "mcp", GoValue.vObj [(gs "servers", .vObj [])])] =
      some KindVSCodeConfig ∧
    some KindVSCodeConfig ≠ some KindLibreChat := by
  exact ⟨by decide, by decide, by decide, rfl, by decide⟩

/-! ### Transport client request headers (`part_009`, `identity.go`) -/

/-- Embeds the `Identity` struct of `identity.go`. -/
structure Identity where
  OrgUUID : GoStr
  HostUUID : GoStr
  Anonymous : Bool

/-- Go `http.Header.Set`: replace the value under the key, else append. -/
def setHeader (hs : List (String × GoStr)) (k : String) (v : GoStr) :
    List (String × GoStr) :=
  if hs.any (fun e => decide (e.1 = k)) then
    hs.map fun e => if e.1 = k then (k, v) else e
  else hs ++ [(k, v)]

/-- Embeds `Client.newRequest` of `part_009` at the level of the headers it
attaches: offline short-circuit; `User-Agent`, `Accept` and `Authorization`;
then, unless the effective identity (context identity if present, else the
client default, as in `IdentityFromContext`) is anonymous, the non-empty
`X-Org-Uuid` and `X-Host-Uuid` values. -/
def newRequest (forceOffline : Bool) (userAgent publishableKey : GoStr)
    (ctxIdentity : Option Identity) (defaultIdentity : Identity) :
    Option (List (String × GoStr)) :=
  if forceOffline = true then none
  else
    let hs1 := if userAgent ≠ [] then setHeader [] "User-Agent" userAgent else []
    let hs2 := setHeader hs1 "Accept" (gs "application/json")
    let hs3 := if publishableKey ≠ [] then
        setHeader hs2 "Authorization" (gs "Bearer " ++ publishableKey)
      else hs2
    let id := match ctxIdentity with
      | some i => i
      | none => defaultIdentity
    let hs4 :=
      if id.Anonymous = true then hs3
      else
        let hs4a := if id.OrgUUID ≠ [] then
            setHeader hs3 "X-Org-Uuid" id.OrgUUID
          else hs3
        if id.HostUUID ≠ [] then setHeader hs4a "X-Host-Uuid" id.HostUUID
        else hs4a
    some hs4

/-- **C3.** For every request built by `newRequest`, if the effective
identity (context-scoped if present, else the client default) is anonymous,
neither `X-Org-Uuid` nor `X-Host-Uuid` is attached, regardless of the UUID
values stored in the identity. -/
theorem C3_anonymous_suppresses_identity (forceOffline : Bool)
    (userAgent publishableKey : GoStr) (ctxIdentity : Option Identity)
    (defaultIdentity : Identity) (hs : List (String × GoStr))
    (hanon : (match ctxIdentity with
      | some i => i
      | none => defaultIdentity).Anonymous = true)
    (hreq : newRequest forceOffline userAgent publishableKey ctxIdentity
      defaultIdentity = some hs) :
    ∀ e ∈ hs, e.1 ≠ "X-Org-Uuid" ∧ e.1 ≠ "X-Host-Uuid" := by
  unfold newRequest at hreq
  by_cases hoff : forceOffline = true
  · rw [if_pos hoff] at hreq
    cases hreq
  · rw [if_neg hoff] at hreq
    simp only [hanon, if_pos rfl, Option.some.injEq] at hreq
    subst hreq
    by_cases hua : userAgent ≠ [] <;> by_cases hpk : publishableKey ≠ [] <;>
      simp [hua, hpk, setHeader, List.any_cons] <;> intro e he <;>
        simp_all <;> rcases he with rfl | rfl <;> simp

/-- Witness for C3: an anonymous context identity with non-empty UUIDs
yields only the three base headers. -/
theorem C3_anonymous_suppresses_identity_witness :
    ((match (some (Identity.mk (gs "0000-org") (gs "0000-host") true) :
        Option Identity) with
      | some i => i
      | none => Identity.mk [] [] false).Anonymous = true) ∧
    (newRequest false (gs "run-mcp/1.0") (gs "key")
        (some (Identity.mk (gs "0000-org") (gs "0000-host") true))
        (Identity.mk [] [] false) =
      some [("User-Agent", gs "run-mcp/1.0"),
            ("Accept", gs "application/json"),
            ("Authorization", gs "Bearer " ++ gs "key")]) ∧
    ∀ e ∈ [("User-Agent", gs "run-mcp/1.0"),
           ("Accept", gs "application/json"),
           ("Authorization", gs "Bearer " ++ gs "key")],
      e.1 ≠ "X-Org-Uuid" ∧ e.1 ≠ "X-Host-Uuid" :=
  ⟨rfl, rfl,
   C3_anonymous_suppresses_identity false (gs "run-mcp/1.0") (gs "key")
     (some (Identity.mk (gs "0000-org") (gs "0000-host") true))
     (Identity.mk [] [] false) _ rfl rfl⟩

/-! ### URL normalization and identifier extraction (`identifiers.go`) -/

/-- A parsed URL (`net/url.URL` restricted to the fields the extractor
touches). -/
structure GoURL where
  scheme : GoStr
  host : GoStr
  path : GoStr
  query : GoStr
  fragment : GoStr
deriving Repr, DecidableEq

/-- ASCII whitespace for `strings.TrimSpace`. -/
def isSpaceB (b : Nat) : Bool :=
  b = 9 || b = 10 || b = 11 || b = 12 || b = 13 || b = 32

/-- Go `strings.TrimSpace` (ASCII model). -/
def goTrimSpace (s : GoStr) : GoStr :=
  ((s.dropWhile isSpaceB).reverse.dropWhile isSpaceB).reverse

/-- Go `strings.TrimSuffix`. -/
def goTrimSuffix (s suf : GoStr) : GoStr :=
  if suf.isSuffixOf s then s.take (s.length - suf.length) else s

/-- Split at the first occurrence of byte `c`: the part before, and the part
after (empty when `c` is absent). -/
def splitOnFirst (s : GoStr) (c : Nat) : GoStr × GoStr :=
  let pre := s.takeWhile fun b => !(b == c)
  (pre, (s.drop pre.length).drop 1)

def isLetterB (b : Nat) : Bool := (65 ≤ b && b ≤ 90) || (97 ≤ b && b ≤ 122)

def isSchemeByte (b : Nat) : Bool :=
  isLetterB b || (48 ≤ b && b ≤ 57) || b = 43 || b = 45 || b = 46

/-- The scheme prefix of `net/url.Parse`: a letter followed by scheme bytes,
then a `:`; `none` when absent. -/
def splitScheme (s : GoStr) : Option (GoStr × GoStr) :=
  let pre := s.takeWhile isSchemeByte
  match pre.head? with
  | some h =>
      if isLetterB h ∧ (s.drop pre.length).head? = some 58 then
        some (pre, (s.drop pre.length).drop 1)
      else none
  | none => none

/-- Models `net/url.Parse` for the URLs the extractor meets: fragment split
first, then scheme, query, and (after `//`) an authority running to the next
`/`.  Escaping, userinfo and port splitting are not modelled; a URL without
a scheme or without `//` gets an empty host, which is all `normalizeURL`
inspects. -/
def goURLParse (raw : GoStr) : Option GoURL :=
  let fr := splitOnFirst raw 35
  match splitScheme fr.1 with
  | none =>
      some { scheme := [], host := [], path := fr.1, query := [],
             fragment := fr.2 }
  | some (sch, rest) =>
      let qs := splitOnFirst rest 63
      if qs.1.take 2 = gs "//" then
        let ap := qs.1.drop 2
        let auth := ap.takeWhile fun b => !(b == 47)
        some { scheme := sch, host := auth, path := ap.drop auth.length,
               query := qs.2, fragment := fr.2 }
      else
        some { scheme := sch, host := [], path := qs.1, query := qs.2,
               fragment := fr.2 }

/-- Models `net/url.URL.String` for the parsed shapes above. -/
def urlString (u : GoURL) : GoStr :=
  (if u.scheme ≠ [] then u.scheme ++ [58] else []) ++
  (if u.host ≠ [] then gs "//" ++ u.host else []) ++
  u.path ++
  (if u.query ≠ [] then [63] ++ u.query else []) ++
  (if u.fragment ≠ [] then [35] ++ u.fragment else [])

/-- Embeds `normalizeURL` of `identifiers.go`: parse, require scheme and
host, clear fragment and query, strip one trailing slash, serialize. -/
def normalizeURL (raw : GoStr) : GoStr :=
  match goURLParse (goTrimSpace raw) with
  | none => []
  | some parsed =>
      if parsed.scheme = [] ∨ parsed.host = [] then []
      else urlString
        { parsed with
          fragment := []
          query := []
          path := goTrimSuffix parsed.path (gs "/") }

/-- Embeds `apigen.TargetIdentifier` (kind strings `url`, `purl`, `oci`,
`repo`). -/
structure TargetIdentifier where
  Kind : GoStr
  Value : GoStr
deriving Repr, DecidableEq

/-- Embeds `getString` of `identifiers.go`. -/
def getStringG (m : List (GoStr × GoValue)) (key : GoStr) : GoStr :=
  match getKeyG m key with
  | some (.vStr s) => goTrimSpace s
  | _ => []

/-- Embeds `toString` of `identifiers.go` for the value shapes the token
collector meets (the `fmt "%v"` rendering of nested maps and slices is not
modelled; no claim depends on it). -/
def toStringG : GoValue → GoStr
  | .vStr s => s
  | .vBool true => gs "true"
  | .vBool false => gs "false"
  | .vNum n => gs (toString n)
  | .vNull => gs "<nil>"
  | _ => []

/-- Embeds `npmPkgRe` of `identifiers.go`:
`^(?:@[^/]+/)?[^@\s]+(?:@[^\s]+)?$`. -/
def npmPkgPat : Pat :=
  ⟨rcat [ropt (rcat [rchr 64, rrepn [(47, 47)] 1 none, rchr 47]),
         rrepn ((64, 64) :: clsWS) 1 none,
         ropt (rcat [rchr 64, rrepn clsWS 1 none])], .anchor, .anchor⟩

/-- Embeds `isNpmPackageToken`. -/
def isNpmPackageToken (tok : GoStr) : Bool :=
  !(tok = []) && !(tok.contains 32) && patMatch npmPkgPat tok

/-- Embeds `isAlphaNumPlus` (= `isPyPackageToken` / `isPyModuleToken`). -/
def isAlphaNumPlus (s : GoStr) : Bool :=
  !(s = []) && s.all fun r =>
    r = 45 || r = 95 || r = 46 || r = 43 || r = 58 || r = 64 ||
    (48 ≤ r && r ≤ 57) || (97 ≤ r && r ≤ 122) || (65 ≤ r && r ≤ 90)

def toPurlNPM (tok : GoStr) : GoStr := gs "pkg:npm/" ++ tok

def toPurlPyPI (tok : GoStr) : GoStr :=
  gs "pkg:pypi/" ++ goReplaceAll tok (gs "_") (gs "-")

/-- Token collection from `command` (string or list) and `args` (list). -/
def collectTokens (m : List (GoStr × GoValue)) : List GoStr :=
  (match getKeyG m (gs "command") with
   | some (.vArr items) => items.map toStringG
   | some (.vStr s) => if s ≠ [] then [s] else []
   | _ => []) ++
  (match getKeyG m (gs "args") with
   | some (.vArr items) => items.map toStringG
   | _ => [])

/-- The `npx` scan of `extractPurlFromStdio`: after each `npx`, skip `-`
flags; a first bare token that is an npm package token wins, otherwise the
outer scan continues. -/
def npxScan : List GoStr → GoStr
  | [] => []
  | tok :: rest =>
      if tok = gs "npx" then
        match rest.find? (fun t => !(goHasPrefixB t (gs "-"))) with
        | some cand =>
            if isNpmPackageToken cand then toPurlNPM cand else npxScan rest
        | none => npxScan rest
      else npxScan rest

/-- The `uvx` / `python -m` / `pipx run` scan of `extractPurlFromStdio`. -/
def pyScan : List GoStr → GoStr
  | [] => []
  | cur :: rest =>
      if cur = gs "uvx" then
        match rest with
        | cand :: _ =>
            if isAlphaNumPlus cand then toPurlPyPI cand else pyScan rest
        | [] => pyScan rest
      else if cur = gs "python" ∨ cur = gs "python3" then
        match rest with
        | m1 :: m2 :: _ =>
            if m1 = gs "-m" ∧ isAlphaNumPlus m2 then toPurlPyPI m2
            else pyScan rest
        | _ => pyScan rest
      else if cur = gs "pipx" then
        match rest with
        | r1 :: r2 :: _ =>
            if r1 = gs "run" ∧ isAlphaNumPlus r2 then toPurlPyPI r2
            else pyScan rest
        | _ => pyScan rest
      else pyScan rest

/-- Embeds `extractPurlFromStdio` of `identifiers.go`. -/
def extractPurlFromStdio (cfg : List (GoStr × GoValue)) : GoStr :=
  let stdio := match getKeyG cfg (gs "stdio") with
    | some (.vObj m) => m
    | _ => cfg
  let tokens := collectTokens stdio
  if tokens = [] then []
  else
    let r := npxScan tokens
    if r ≠ [] then r else pyScan tokens

/-- Embeds `takesValue` of `identifiers.go`. -/
def takesValue (flag : GoStr) : Bool :=
  flag = gs "-e" || flag = gs "--env" || flag = gs "-v" ||
  flag = gs "--volume" || flag = gs "-p" || flag = gs "--publish" ||
  flag = gs "--name" || flag = gs "--network"

/-- Embeds `looksLikeOCIRef` of `identifiers.go`. -/
def looksLikeOCIRef (s : GoStr) : Bool :=
  s.contains 47 && !(s.contains 32) &&
  (let host := s.takeWhile fun b => !(b == 47)
   host.contains 46 || host.contains 58)

/-- The image scan after `docker|podman run`: consume one value after each
value-taking flag; the first bare token that looks like an OCI reference
wins; any other bare token stops the scan. -/
def dockerInner : List GoStr → GoStr
  | [] => []
  | tj :: rest =>
      if goHasPrefixB tj (gs "-") then
        if takesValue tj then
          match rest with
          | [] => []
          | _ :: rest2 => dockerInner rest2
        else dockerInner rest
      else if looksLikeOCIRef tj then tj
      else []

/-- The outer `docker|podman run` scan of `extractOCIFromDocker`. -/
def dockerScan : List GoStr → GoStr
  | [] => []
  | tok :: rest =>
      if tok = gs "docker" ∨ tok = gs "podman" then
        match rest with
        | next :: rest2 =>
            if next = gs "run" then
              let r := dockerInner rest2
              if r ≠ [] then r else dockerScan rest
            else dockerScan rest
        | [] => []
      else dockerScan rest

/-- Embeds `extractOCIFromDocker` of `identifiers.go` (tokens from the
server itself and from a nested `stdio` map). -/
def extractOCIFromDocker (cfg : List (GoStr × GoValue)) : GoStr :=
  let tokens := collectTokens cfg ++
    (match getKeyG cfg (gs "stdio") with
     | some (.vObj m) => collectTokens m
     | _ => [])
  if tokens = [] then [] else dockerScan tokens

def trimGitSuffix (s : GoStr) : GoStr := goTrimSuffix s (gs ".git")

/-- Embeds `hostEqual` of `identifiers.go` (`EqualFold` on ASCII). -/
def hostEqual (a b : GoStr) : Bool :=
  goToLower (goTrimSuffix a (gs ":443")) = goToLower (goTrimSuffix b (gs ":443"))

/-- Go `strings.Trim(s, "/")`. -/
def goTrimSlashes (s : GoStr) : GoStr :=
  ((s.dropWhile (· == 47)).reverse.dropWhile (· == 47)).reverse

/-- The VCS-URL arm of `extractRepoHint`: first of `url`, `endpoint`,
`baseUrl` whose host is github.com (first two path segments) or gitlab.com
(last two). -/
def repoFromURLKeys : List GoStr → List (GoStr × GoValue) → GoStr × GoStr
  | [], _ => ([], [])
  | key :: keys, cfg =>
      let u := getStringG cfg key
      if u = [] then repoFromURLKeys keys cfg
      else
        match goURLParse u with
        | none => repoFromURLKeys keys cfg
        | some pu =>
            let segs := (goTrimSlashes pu.path).splitOn 47
            if hostEqual pu.host (gs "github.com") then
              if 2 ≤ segs.length then
                (segs.getD 0 [], trimGitSuffix (segs.getD 1 []))
              else repoFromURLKeys keys cfg
            else if hostEqual pu.host (gs "gitlab.com") then
              if 2 ≤ segs.length then
                (segs.getD (segs.length - 2) [],
                 trimGitSuffix (segs.getD (segs.length - 1) []))
              else repoFromURLKeys keys cfg
            else repoFromURLKeys keys cfg

/-- Embeds `extractRepoHint` of `identifiers.go`. -/
def extractRepoHint (cfg : List (GoStr × GoValue)) (serverName : GoStr) :
    GoStr × GoStr :=
  let name := goReplaceAll (goReplaceAll serverName (gs " ") []) (gs "_") (gs "-")
  let bySlash :=
    if name.contains 47 then
      let parts := name.splitOn 47
      if parts.length = 2 ∧ parts.getD 0 [] ≠ [] ∧ parts.getD 1 [] ≠ [] then
        some (parts.getD 0 [], parts.getD 1 [])
      else none
    else none
  match bySlash with
  | some r => r
  | none =>
      let byDash :=
        if name.contains 45 then
          let parts := name.splitOn 45
          if parts.length = 2 ∧ parts.getD 0 [] ≠ [] ∧ parts.getD 1 [] ≠ [] then
            some (parts.getD 0 [], parts.getD 1 [])
          else none
        else none
      match byDash with
      | some r => r
      | none => repoFromURLKeys [gs "url", gs "endpoint", gs "baseUrl"] cfg

/-- Embeds `extractRepoFromNodeDist` of `identifiers.go`. -/
def extractRepoFromNodeDist (cfg : List (GoStr × GoValue)) : GoStr :=
  let cmd0 := getStringG cfg (gs "command")
  let cmd := if cmd0 = [] then
      (match getKeyG cfg (gs "stdio") with
       | some (.vObj m) => getStringG m (gs "command")
       | _ => [])
    else cmd0
  if cmd ≠ gs "node" then []
  else
    let firstArg0 := match getKeyG cfg (gs "args") with
      | some (.vArr (a0 :: _)) => toStringG a0
      | _ => []
    let firstArg := if firstArg0 = [] then
        (match getKeyG cfg (gs "stdio") with
         | some (.vObj m) =>
            (match getKeyG m (gs "args") with
             | some (.vArr (a0 :: _)) => toStringG a0
             | _ => [])
         | _ => [])
      else firstArg0
    if goHasPrefixB firstArg (gs "dist/") = true ∧
        (gs "/index.js").isSuffixOf firstArg then
      gs "modelcontextprotocol/servers"
    else []

/-- Embeds `dedupeIdentifiers` of `identifiers.go`: drop empty kinds or
values, keep the first occurrence per (kind, value). -/
def dedupeIdentifiers (l : List TargetIdentifier) : List TargetIdentifier :=
  l.foldl
    (fun out ti =>
      if ti.Kind = [] ∨ ti.Value = [] then out
      else if out.any (fun o => decide (o.Kind = ti.Kind ∧ o.Value = ti.Value))
      then out
      else out ++ [ti]) []

/-- The URL arm (step 1) of `ExtractIdentifiers`: first key whose non-empty
string value normalizes to a non-empty URL. -/
def urlBranch : List GoStr → List (GoStr × GoValue) → List TargetIdentifier
  | [], _ => []
  | key :: keys, cfg =>
      let u := getStringG cfg key
      if u ≠ [] then
        let norm := normalizeURL u
        if norm ≠ [] then [⟨gs "url", norm⟩] else urlBranch keys cfg
      else urlBranch keys cfg

/-- Embeds `IdentifierExtractor.ExtractIdentifiers` of `identifiers.go`. -/
def ExtractIdentifiers (serverName : GoStr) (serverConfig : GoValue) :
    List TargetIdentifier :=
  match serverConfig with
  | .vObj cfg =>
      let out1 := urlBranch [gs "url", gs "endpoint", gs "baseUrl"] cfg
      let out2 :=
        let p := extractPurlFromStdio cfg
        if p ≠ [] then [⟨gs "purl", p⟩] else []
      let out3 :=
        let r := extractOCIFromDocker cfg
        if r ≠ [] then [⟨gs "oci", r⟩] else []
      let out4a :=
        let r := extractRepoHint cfg serverName
        if r.1 ≠ [] ∧ r.2 ≠ [] then [⟨gs "repo", r.1 ++ gs "/" ++ r.2⟩] else []
      let out4b :=
        let r := extractRepoFromNodeDist cfg
        if r ≠ [] then [⟨gs "repo", r⟩] else []
      dedupeIdentifiers (out1 ++ out2 ++ out3 ++ out4a ++ out4b)
  | _ => []

theorem mem_condSingleton {x t : TargetIdentifier} {c : Prop} [Decidable c]
    (h : x ∈ (if c then [t] else [])) : x = t := by
  by_cases hc : c
  · simpa [hc] using h
  · simp [hc] at h

theorem mem_dedupeIdentifiers {x : TargetIdentifier}
    {l : List TargetIdentifier} (h : x ∈ dedupeIdentifiers l) : x ∈ l := by
  unfold dedupeIdentifiers at h
  suffices hgen : ∀ acc : List TargetIdentifier,
      x ∈ l.foldl (fun out ti =>
        if ti.Kind = [] ∨ ti.Value = [] then out
        else if out.any (fun o => decide (o.Kind = ti.Kind ∧ o.Value = ti.Value))
        then out
        else out ++ [ti]) acc → x ∈ acc ∨ x ∈ l by
    rcases hgen [] h with h2 | h2
    · cases h2
    · exact h2
  clear h
  induction l with
  | nil => intro acc h; exact Or.inl h
  | cons t rest ih =>
      intro acc h
      rw [List.foldl_cons] at h
      rcases ih _ h with h2 | h2
      · by_cases h3 : t.Kind = [] ∨ t.Value = []
        · rw [if_pos h3] at h2
          exact Or.inl h2
        · rw [if_neg h3] at h2
          by_cases h4 : acc.any
              (fun o => decide (o.Kind = t.Kind ∧ o.Value = t.Value)) = true
          · rw [if_pos h4] at h2
            exact Or.inl h2
          · rw [if_neg h4] at h2
            rcases List.mem_append.mp h2 with h5 | h5
            · exact Or.inl h5
            · simp only [List.mem_singleton] at h5
              exact Or.inr (by simp [h5])
      · exact Or.inr (by simp [h2])

theorem mem_urlBranch {keys : List GoStr} {cfg : List (GoStr × GoValue)}
    {x : TargetIdentifier} (h : x ∈ urlBranch keys cfg) :
    ∃ key ∈ keys, getStringG cfg key ≠ [] ∧
      x = ⟨gs "url", normalizeURL (getStringG cfg key)⟩ ∧
      normalizeURL (getStringG cfg key) ≠ [] := by
  induction keys with
  | nil => cases h
  | cons key keys ih =>
      rw [urlBranch] at h
      by_cases h1 : getStringG cfg key ≠ []
      · rw [if_pos h1] at h
        by_cases h2 : normalizeURL (getStringG cfg key) ≠ []
        · rw [if_pos h2] at h
          simp only [List.mem_singleton] at h
          exact ⟨key, by simp, h1, h, h2⟩
        · rw [if_neg h2] at h
          obtain ⟨k2, hk2, hrest⟩ := ih h
          exact ⟨k2, by simp [hk2], hrest⟩
      · rw [if_neg h1] at h
        obtain ⟨k2, hk2, hrest⟩ := ih h
        exact ⟨k2, by simp [hk2], hrest⟩

theorem trimSlash_double {s : GoStr}
    (h : (goTrimSuffix s (gs "/")).getLast? = some 47) :
    ∃ p0, s = p0 ++ gs "//" := by
  unfold goTrimSuffix at h
  by_cases hsuf : (gs "/").isSuffixOf s = true
  · rw [if_pos hsuf] at h
    obtain ⟨ys, hys⟩ := List.getLast?_eq_some_iff.mp h
    obtain ⟨pre, hpre⟩ := List.isSuffixOf_iff_suffix.mp hsuf
    have hlen : s.length - (gs "/").length = pre.length := by
      rw [← hpre]
      simp [gs]
    rw [hlen] at hys
    have hpretake : s.take pre.length = pre := by
      rw [← hpre]
      simp
    rw [hpretake] at hys
    refine ⟨ys, ?_⟩
    have h2 : ([47] : List Nat) ++ gs "/" = gs "//" := by decide
    rw [← hpre, hys, List.append_assoc, h2]
  · rw [if_neg hsuf] at h
    obtain ⟨ys, hys⟩ := List.getLast?_eq_some_iff.mp h
    exfalso
    apply hsuf
    rw [List.isSuffixOf_iff_suffix]
    exact ⟨ys, by rw [hys]; rfl⟩

/-- **C7 (amended).** Every url-kind identifier emitted by
`ExtractIdentifiers` serializes a parsed URL with non-empty scheme and
non-empty host, with its query and fragment cleared, and with its path
stripped of exactly one trailing slash — so the emitted path retains a
trailing slash only when the configured path ended in a double slash. -/
theorem C7_url_normalization (serverName : GoStr) (serverConfig : GoValue)
    (v : GoStr)
    (hmem : TargetIdentifier.mk (gs "url") v ∈
      ExtractIdentifiers serverName serverConfig) :
    ∃ (raw : GoStr) (u : GoURL),
      goURLParse (goTrimSpace raw) = some u ∧
      u.scheme ≠ [] ∧ u.host ≠ [] ∧
      v = urlString
        { u with
          fragment := []
          query := []
          path := goTrimSuffix u.path (gs "/") } ∧
      ((goTrimSuffix u.path (gs "/")).getLast? = some 47 →
        ∃ p0, u.path = p0 ++ gs "//") := by
  match serverConfig with
  | .vNull | .vBool _ | .vNum _ | .vStr _ | .vArr _ => cases hmem
  | .vObj cfg =>
      rw [ExtractIdentifiers] at hmem
      have hmem2 := mem_dedupeIdentifiers hmem
      simp only [List.mem_append] at hmem2
      have hurl : TargetIdentifier.mk (gs "url") v ∈
          urlBranch [gs "url", gs "endpoint", gs "baseUrl"] cfg := by
        rcases hmem2 with ((((h | h) | h) | h) | h)
        · exact h
        · have hk := mem_condSingleton h
          rw [TargetIdentifier.mk.injEq] at hk
          exact absurd hk.1 (by decide)
        · have hk := mem_condSingleton h
          rw [TargetIdentifier.mk.injEq] at hk
          exact absurd hk.1 (by decide)
        · have hk := mem_condSingleton h
          rw [TargetIdentifier.mk.injEq] at hk
          exact absurd hk.1 (by decide)
        · have hk := mem_condSingleton h
          rw [TargetIdentifier.mk.injEq] at hk
          exact absurd hk.1 (by decide)
      obtain ⟨key, _, hne, heq, hnorm⟩ := mem_urlBranch hurl
      have hv : v = normalizeURL (getStringG cfg key) := by
        have := congrArg TargetIdentifier.Value heq
        simpa using this
      rcases hp : goURLParse (goTrimSpace (getStringG cfg key)) with _ | u
      · exfalso
        apply hnorm
        unfold normalizeURL
        rw [hp]
      · by_cases hsh : u.scheme = [] ∨ u.host = []
        · exfalso
          apply hnorm
          unfold normalizeURL
          rw [hp]
          exact if_pos hsh
        · push_neg at hsh
          refine ⟨getStringG cfg key, u, hp, hsh.1, hsh.2, ?_,
            fun hlast => trimSlash_double hlast⟩
          rw [hv]
          unfold normalizeURL
          simp only [hp]
          rw [if_neg (show ¬(u.scheme = [] ∨ u.host = []) by
            push_neg
            exact hsh)]

/-- **C7 counterexample.** The config value `https://h//` yields the url
identifier `https://h/`: its parsed path is `/`, which is non-empty and
ends in a trailing slash, because `normalizeURL` strips only a single
trailing slash (`strings.TrimSuffix(u.Path, "/")`). -/
theorem C7_counterexample :
    ExtractIdentifiers (gs "s") (.vObj [(gs "url", .vStr (gs "https://h//"))])
      = [⟨gs "url", gs "https://h/"⟩] ∧
    goURLParse (gs "https://h/") = some
      { scheme := gs "https", host := gs "h", path := gs "/", query := [],
        fragment := [] } ∧
    gs "/" ≠ [] ∧ (gs "/").getLast? = some 47 :=
  ⟨by rfl, by rfl, by decide, by rfl⟩

/-- Witness: the amended C7 statement instantiated at the double-slash
configuration. -/
theorem C7_url_normalization_witness :
    ∃ (raw : GoStr) (u : GoURL),
      goURLParse (goTrimSpace raw) = some u ∧
      u.scheme ≠ [] ∧ u.host ≠ [] ∧
      gs "https://h/" = urlString
        { u with
          fragment := []
          query := []
          path := goTrimSuffix u.path (gs "/") } ∧
      ((goTrimSuffix u.path (gs "/")).getLast? = some 47 →
        ∃ p0, u.path = p0 ++ gs "//") :=
  C7_url_normalization (gs "s")
    (.vObj [(gs "url", .vStr (gs "https://h//"))]) (gs "https://h/")
    (by decide)

/-! ### Collector batching (`collector.go`) -/

/-- `batchSize` of `collector.go`. -/
def batchSizeC : Nat := 25

/-- `channelSize` of `collector.go` (buffer capacity of `sendCh`). -/
def channelSizeC : Nat := 8

/-- State of a `RatingsCollector`: the global dedupe set, the pending
batch, the identifier-to-servers fan-out map, per-server policy, the
debounce timer flag, the buffered send channel (queued batches), whether
the channel has been closed, batches dropped by backpressure, and whether
a send was ever attempted on the closed channel (a Go panic). -/
structure Collector where
  seen : List (GoStr × GoStr)
  curBatch : List TargetIdentifier
  idToServers : List (GoStr × List GoStr)
  serverPolicy : List (GoStr × GoStr)
  timerArmed : Bool
  sendCh : List (List TargetIdentifier)
  closed : Bool
  droppedBatches : Nat
  badSend : Bool
deriving Repr, DecidableEq

/-- `makeKey` of `collector.go`: `kind + "|" + value`. -/
def makeKey (t : TargetIdentifier) : GoStr := t.Kind ++ [124] ++ t.Value

/-- Go `m[k] = append(m[k], v)` on a string-keyed map of slices. -/
def mapAppendG (m : List (GoStr × List GoStr)) (k v : GoStr) :
    List (GoStr × List GoStr) :=
  if m.any fun p => p.1 = k then
    m.map fun p => if p.1 = k then (p.1, p.2 ++ [v]) else p
  else m ++ [(k, [v])]

/-- Go `m[k] = v` on a string-keyed map. -/
def mapSetG (m : List (GoStr × GoStr)) (k v : GoStr) : List (GoStr × GoStr) :=
  if m.any fun p => p.1 = k then
    m.map fun p => if p.1 = k then (p.1, v) else p
  else m ++ [(k, v)]

/-- Go `if _, ok := m[k]; !ok { m[k] = v }`. -/
def mapSetIfAbsentG (m : List (GoStr × GoStr)) (k v : GoStr) :
    List (GoStr × GoStr) :=
  if m.any fun p => p.1 = k then m else m ++ [(k, v)]

/-- The recording loop of `RatingsCollector.Submit`: skip identifiers with
empty kind or value; an identifier already seen globally only extends the
fan-out map; a new one is recorded in `seen`, appended to the pending
batch, and added to the fan-out map. -/
def submitLoop (serverName : GoStr) (c : Collector) :
    List TargetIdentifier → Collector
  | [] => c
  | id :: rest =>
      if id.Kind = [] ∨ id.Value = [] then submitLoop serverName c rest
      else if (id.Kind, id.Value) ∈ c.seen then
        submitLoop serverName
          { c with
            idToServers := (mapAppendG c.idToServers (makeKey id) serverName) }
          rest
      else
        submitLoop serverName
          { c with
            seen := c.seen ++ [(id.Kind, id.Value)]
            curBatch := c.curBatch ++ [id]
            idToServers := (mapAppendG c.idToServers (makeKey id) serverName) }
          rest

/-- Embeds `RatingsCollector.flushLocked`: a no-op on an empty batch;
otherwise the whole pending batch is moved out and sent as one message
(buffered if the channel has room, dropped otherwise; a send attempted
after `close` is a panic, recorded in `badSend`). -/
def flushLocked (c : Collector) : Collector :=
  if c.curBatch = [] then c
  else
    let batch := c.curBatch
    let c1 := { c with curBatch := ([] : List TargetIdentifier) }
    if c1.closed then { c1 with badSend := true }
    else if c1.sendCh.length < channelSizeC then
      { c1 with sendCh := c1.sendCh ++ [batch] }
    else { c1 with droppedBatches := c1.droppedBatches + 1 }

/-- Embeds `RatingsCollector.Submit` (one sequential call; the
`allowlisted` and `offline` flags stand for `localAllowlisted(...)` and
`rc.client == nil`): allowlisted servers short-circuit to policy
`allowed`; offline or identifier-less servers default their policy to
`unknown`; otherwise all extracted identifiers are recorded, the debounce
timer is armed, and if the pending batch has reached `batchSize` it is
flushed at once. -/
def Submit (c : Collector) (allowlisted offline : Bool) (serverName : GoStr)
    (serverConfig : GoValue) : Collector :=
  if allowlisted then
    { c with serverPolicy := mapSetG c.serverPolicy serverName (gs "allowed") }
  else if offline then
    { c with serverPolicy :=
        mapSetIfAbsentG c.serverPolicy serverName (gs "unknown") }
  else
    let ids := ExtractIdentifiers serverName serverConfig
    if ids = [] then
      { c with serverPolicy :=
          mapSetIfAbsentG c.serverPolicy serverName (gs "unknown") }
    else
      let c1 := submitLoop serverName c ids
      let c2 := { c1 with timerArmed := true }
      if batchSizeC ≤ c2.curBatch.length then flushLocked c2 else c2

/-- Embeds `RatingsCollector.FlushAndStop` run to completion with no
interference: stop the timer, flush the pending batch under the mutex,
then close the channel. -/
def FlushAndStop (c : Collector) : Collector :=
  let c1 := flushLocked { c with timerArmed := false }
  { c1 with closed := true }

/-- State of the collector race: the collector itself, the batch captured
by a `setClient`-initiated flush whose send has not yet executed, and how
many times the channel has been closed. -/
structure RaceState where
  rc : Collector
  captured : List TargetIdentifier
  closeCount : Nat
deriving Repr, DecidableEq

/-- Atomic steps of the interleaving between `SetClient` and
`FlushAndStop`. `setClientCapture` and `deferredSend` are the two halves
of the `setClient`-initiated flush; `stopFlush` and `closeQueue` are the
two halves of `FlushAndStop` (the `close` runs after the mutex is
released). -/
inductive CEvent where
  | setClientCapture
  | deferredSend
  | stopFlush
  | closeQueue
deriving Repr, DecidableEq

/-- Modelled from the spec: `setClient(client)` attaches the remote client
and, finding identifiers that accumulated while no client was attached,
triggers a deferred flush of the pending batch; the source marks this
flush as racing with `flushAndStop`, so its send is NOT serialized with
shutdown through the mutex that guards the timer. `setClientCapture` is
the locked half (capture and clear the pending batch); `deferredSend` is
the asynchronous send of the captured batch, which panics (`badSend`) if
the channel has been closed in between. `stopFlush`/`closeQueue` replay
`FlushAndStop` in two steps around its mutex release. -/
def raceStep (s : RaceState) : CEvent → RaceState
  | .setClientCapture =>
      if s.rc.curBatch = [] then s
      else
        { s with
          rc := { s.rc with curBatch := ([] : List TargetIdentifier) }
          captured := s.rc.curBatch }
  | .deferredSend =>
      if s.captured = [] then s
      else
        let c := s.rc
        if c.closed then
          { s with rc := { c with badSend := true }, captured := [] }
        else if c.sendCh.length < channelSizeC then
          { s with
            rc := { c with sendCh := c.sendCh ++ [s.captured] }
            captured := [] }
        else
          { s with
            rc := { c with droppedBatches := c.droppedBatches + 1 }
            captured := [] }
  | .stopFlush => { s with rc := flushLocked { s.rc with timerArmed := false } }
  | .closeQueue =>
      { s with
        rc := { s.rc with closed := true }
        closeCount := s.closeCount + 1 }

/-- Run a schedule of collector events from a state. -/
def runRace (s : RaceState) (es : List CEvent) : RaceState :=
  es.foldl raceStep s

theorem submitLoop_sendCh (serverName : GoStr) (c : Collector)
    (ids : List TargetIdentifier) :
    (submitLoop serverName c ids).sendCh = c.sendCh ∧
    (submitLoop serverName c ids).closed = c.closed := by
  induction ids generalizing c with
  | nil => exact ⟨rfl, rfl⟩
  | cons id rest ih =>
      rw [submitLoop]
      by_cases h1 : id.Kind = [] ∨ id.Value = []
      · rw [if_pos h1]
        exact ih c
      · rw [if_neg h1]
        by_cases h2 : (id.Kind, id.Value) ∈ c.seen
        · rw [if_pos h2]
          exact ih _
        · rw [if_neg h2]
          exact ih _

/-- **C6 (amended).** When a Submit of a non-allowlisted, online server
with at least one extracted identifier brings the pending batch to
`batchSize` or more, the ENTIRE pending batch (not just the first
`batchSize` identifiers) is moved to the send queue as a single message,
and nothing stays pending: `curBatch` is left empty. -/
theorem C6_batch_flush (c : Collector) (serverName : GoStr)
    (serverConfig : GoValue)
    (hcl : c.closed = false)
    (hids : ExtractIdentifiers serverName serverConfig ≠ [])
    (hlen : batchSizeC ≤
      (submitLoop serverName c
        (ExtractIdentifiers serverName serverConfig)).curBatch.length)
    (hch : c.sendCh.length < channelSizeC) :
    (Submit c false false serverName serverConfig).curBatch = [] ∧
    (Submit c false false serverName serverConfig).sendCh =
      c.sendCh ++ [(submitLoop serverName c
        (ExtractIdentifiers serverName serverConfig)).curBatch] := by
  obtain ⟨hs, hc⟩ :=
    submitLoop_sendCh serverName c (ExtractIdentifiers serverName serverConfig)
  rw [Submit]
  simp only [Bool.false_eq_true, if_false, if_neg hids]
  rw [if_pos (by simpa using hlen)]
  rw [flushLocked]
  rw [if_neg (by
    intro h0
    rw [show (submitLoop serverName c
        (ExtractIdentifiers serverName serverConfig)).curBatch = [] by
      simpa using h0] at hlen
    simp [batchSizeC] at hlen)]
  simp only []
  rw [if_neg (by simp [hc, hcl])]
  rw [if_pos (by simpa [hs] using hch)]
  exact ⟨rfl, by simp [hs]⟩

/-- A collector with 24 pending identifiers, an armed timer, and an empty
send queue. -/
def c24 : Collector :=
  { seen := (List.range 24).map fun i => (gs "url", gs "https://a/" ++ [65 + i])
    curBatch := (List.range 24).map fun i =>
      ⟨gs "url", gs "https://a/" ++ [65 + i]⟩
    idToServers := []
    serverPolicy := []
    timerArmed := true
    sendCh := []
    closed := false
    droppedBatches := 0
    badSend := false }

/-- A server config whose extraction yields two identifiers (a url and a
repo hint). -/
def cfgGitHub : GoValue :=
  .vObj [(gs "url", .vStr (gs "https://github.com/aa/bb"))]

/-- **C6 counterexample.** A Submit that brings a 24-identifier pending
batch to 26 does not send the first 25 and keep 1 pending: the whole
26-identifier batch is queued as one message and the pending batch is left
empty. -/
theorem C6_counterexample :
    c24.curBatch.length = 24 ∧
    (ExtractIdentifiers (gs "s") cfgGitHub).length = 2 ∧
    (Submit c24 false false (gs "s") cfgGitHub).curBatch = [] ∧
    (Submit c24 false false (gs "s") cfgGitHub).sendCh.length = 1 ∧
    ((Submit c24 false false (gs "s") cfgGitHub).sendCh.getD 0 []).length
      = 26 :=
  ⟨by rfl, by rfl, by rfl, by rfl, by rfl⟩

/-- Witness: the amended C6 statement instantiated at the 24-pending
collector and the two-identifier config. -/
theorem C6_batch_flush_witness :
    (Submit c24 false false (gs "s") cfgGitHub).curBatch = [] ∧
    (Submit c24 false false (gs "s") cfgGitHub).sendCh =
      c24.sendCh ++ [(submitLoop (gs "s") c24
        (ExtractIdentifiers (gs "s") cfgGitHub)).curBatch] :=
  C6_batch_flush c24 (gs "s") cfgGitHub (by rfl) (by decide) (by decide)
    (by decide)

/-- **C10.** In the interleaving where the `setClient`-initiated flush
captures the pending batch, `FlushAndStop` then flushes (a no-op, the
batch is already captured) and closes the queue, and the deferred send
finally runs, the queue is closed exactly once and yet a send is attempted
on the closed queue (Go: send on closed channel, a panic) — the
reproduction of the skipped race test. -/
theorem C10_send_after_close :
    (runRace
      { rc :=
          { seen := []
            curBatch := [⟨gs "url", gs "x"⟩]
            idToServers := []
            serverPolicy := []
            timerArmed := true
            sendCh := []
            closed := false
            droppedBatches := 0
            badSend := false }
        captured := []
        closeCount := 0 }
      [.setClientCapture, .stopFlush, .closeQueue, .deferredSend]).closeCount
      = 1 ∧
    (runRace
      { rc :=
          { seen := []
            curBatch := [⟨gs "url", gs "x"⟩]
            idToServers := []
            serverPolicy := []
            timerArmed := true
            sendCh := []
            closed := false
            droppedBatches := 0
            badSend := false }
        captured := []
        closeCount := 0 }
      [.setClientCapture, .stopFlush, .closeQueue, .deferredSend]).rc.badSend
      = true :=
  ⟨by rfl, by rfl⟩
